import Mathlib

/-!
Verification of the Sympal mailing-list synchronization core.

This file gives a shallow embedding, in Lean 4, of the parts of the
Sympal repository that the specification's claims are about:

* `Sympal/Subscriber.py` — the per-subscriber record and its two
  attribute-group update methods (`update_subscriber_info`,
  `update_bouncing_info`);
* `Sympal/MailingList.py` — the subscriber registry merge/prune pass
  (`__rows_to_Subscribers`), the bounce pass
  (`__update_bouncing_from_root` / `__update_subscriber_bouncing_info`),
  the staleness predicate (`__needs_update`), the poll-until-changed
  loops (`__update_from_review`, `__update_from_review_bouncing`), the
  desired-subscriber normalization (`__subs_from_obj` and friends), the
  reconciliation in `set_subscribers`, and the bounded concurrent
  dispatcher (`__send_concurrent_requests`);
* `Sympal/MailingList_Meta.py` — the admin-privilege gate.

Python dictionaries are modelled by insertion-ordered association lists,
Python dynamic values by small inductive types, calendar dates by an
opaque numeric code, raised exceptions by `Except`, and the threaded
dispatcher by an explicit interleaving transition system.
-/

namespace Sympal

/-- Opaque model of a parsed `datetime` (e.g. from `strptime(..., "%d %b %Y")`).
Only equality of dates matters to the code under study. -/
abbrev PyDate := Nat

/-- A Python value that is either an `int` or a `str`.  The field
`bounce_count` holds the int `0` when defaulted and the raw column string
when parsed from the bounce table. -/
inductive PyCount where
  | intVal (n : Int)
  | strVal (s : String)
  deriving DecidableEq, Repr

/-- Model of `Sympal/Subscriber.py`'s `Subscriber`: the `subscriber_info`
attribute group (`email`, `name`, `picture`, `reception`, `sources`,
`sub_date`, `last_update`; the `mailing_list` back-reference is
informational only and omitted) followed by the `bouncing_info` group
(`bouncing`, `bounce_score`, `bounce_count`, `first_bounce`,
`last_bounce`).  The `picture` column element is modelled by its text. -/
structure Subscriber where
  email : String
  name : String
  picture : String
  reception : String
  sources : String
  sub_date : PyDate
  last_update : PyDate
  bouncing : Bool
  bounce_score : String
  bounce_count : PyCount
  first_bounce : Option PyDate
  last_bounce : Option PyDate
  deriving DecidableEq, Repr

/-- A parsed row of the review page's subscriber table, as produced by
`tr_to_subscriber_dict` in `__rows_to_Subscribers` (the subscriber-info
columns; the same function also writes default bounce fields, which are
modelled at their use sites). -/
structure SubRow where
  email : String
  picture : String
  name : String
  reception : String
  sources : String
  sub_date : PyDate
  last_update : PyDate
  deriving DecidableEq, Repr

/-- A parsed row of the review-bouncing page's table, as produced by
`tr_to_subscriber_info` in `__update_subscriber_bouncing_info`.
`bounce_score` and `bounce_count` are the raw column strings. -/
structure BounceRow where
  email : String
  bounce_score : String
  bounce_count : String
  first_bounce : PyDate
  last_bounce : PyDate
  deriving DecidableEq, Repr

/-! ### Insertion-ordered dictionaries

Python 3 `dict`s preserve insertion order; assigning to an existing key
keeps its position, assigning a fresh key appends.  They are modelled by
association lists with the operations below. -/

/-- `m[k]` / `m.get(k)`: first value stored under `k`. -/
def dlookup {α : Type} (m : List (String × α)) (k : String) : Option α :=
  match m with
  | [] => none
  | (k0, v) :: rest => if k0 = k then some v else dlookup rest k

/-- `m[k] = v`: replace in place if `k` is present, append otherwise. -/
def dinsert {α : Type} (m : List (String × α)) (k : String) (v : α) :
    List (String × α) :=
  match m with
  | [] => [(k, v)]
  | (k0, v0) :: rest =>
      if k0 = k then (k0, v) :: rest else (k0, v0) :: dinsert rest k v

/-- `list(m.keys())` in iteration order. -/
def dkeys {α : Type} (m : List (String × α)) : List String :=
  m.map Prod.fst

/-- The registry `self._subscribers` of one `MailingList`. -/
abbrev Registry := List (String × Subscriber)

/-! ### Subscriber attribute updates (`Sympal/Subscriber.py`) -/

/-- `Subscriber.update_subscriber_info(**row)`: `__set_attributes`
restricted to the `subscriber_info` key list, so exactly the
subscriber-info fields are overwritten and the `bouncing_info` fields are
left untouched. -/
def update_subscriber_info (s : Subscriber) (r : SubRow) : Subscriber :=
  { s with
    email := r.email
    picture := r.picture
    name := r.name
    reception := r.reception
    sources := r.sources
    sub_date := r.sub_date
    last_update := r.last_update }

/-- A fresh `Subscriber(**data)` built from a review-page row: the
subscriber-info fields from the row, and the default bounce fields that
`tr_to_subscriber_dict` writes (`bouncing=False`, `bounce_score='no
score'`, `bounce_count=0`, no bounce timestamps). -/
def newSubscriber (r : SubRow) : Subscriber :=
  { email := r.email
    name := r.name
    picture := r.picture
    reception := r.reception
    sources := r.sources
    sub_date := r.sub_date
    last_update := r.last_update
    bouncing := false
    bounce_score := "no score"
    bounce_count := .intVal 0
    first_bounce := none
    last_bounce := none }

/-- The default dictionary `d` built at the top of
`__update_subscriber_bouncing_info`, applied via
`update_bouncing_info(**d)`: resets the five bounce fields. -/
def resetBouncingInfo (s : Subscriber) : Subscriber :=
  { s with
    bouncing := false
    bounce_score := "no score"
    bounce_count := .intVal 0
    first_bounce := none
    last_bounce := none }

/-- `update_bouncing_info(**info)` for a parsed bounce row
(`tr_to_subscriber_info` sets `bouncing = True` and the row's score,
count and timestamps). -/
def applyBounceRow (s : Subscriber) (r : BounceRow) : Subscriber :=
  { s with
    bouncing := true
    bounce_score := r.bounce_score
    bounce_count := .strVal r.bounce_count
    first_bounce := some r.first_bounce
    last_bounce := some r.last_bounce }

/-! ### Registry merge/prune pass (`__rows_to_Subscribers`) -/

/-- One iteration of the `for tr in list_of_trs` loop in
`__rows_to_Subscribers`: record the row's email in `found_emails`, then
merge into an existing entry or insert a new `Subscriber`. -/
def rowsStep (acc : Registry × List String) (r : SubRow) :
    Registry × List String :=
  let found := acc.2 ++ [r.email]
  match dlookup acc.1 r.email with
  | some s => (dinsert acc.1 r.email (update_subscriber_info s r), found)
  | none => (acc.1 ++ [(r.email, newSubscriber r)], found)

/-- `__rows_to_Subscribers(list_of_trs)`: `extant` records whether the
registry was non-empty to start; fold the rows through `rowsStep`; if it
was non-empty, prune every entry whose email was not seen in this pass
(`extant` is the negation of the emptiness test, so the branches appear
here in the flipped order). -/
def rows_to_Subscribers (subs0 : Registry) (rows : List SubRow) : Registry :=
  if subs0.isEmpty then (rows.foldl rowsStep (subs0, [])).1
  else
    (rows.foldl rowsStep (subs0, [])).1.filter
      (fun kv => (rows.foldl rowsStep (subs0, [])).2.contains kv.1)

/-! ### Bounce pass (`__update_subscriber_bouncing_info`,
`__update_bouncing_from_root`) -/

/-- The `for tr in list_of_trs` loop of
`__update_subscriber_bouncing_info`: each row does
`self._subscribers[info['email']].update_bouncing_info(**info)`.  A row
whose email is not a registry key raises `KeyError`, modelled by
`Except.error`, which aborts the loop. -/
def applyBounceRows (m : Registry) : List BounceRow → Except String Registry
  | [] => Except.ok m
  | r :: rs =>
      match dlookup m r.email with
      | some s => applyBounceRows (dinsert m r.email (applyBounceRow s r)) rs
      | none => Except.error ("KeyError: " ++ r.email)

/-- `__update_subscriber_bouncing_info(list_of_trs)`: reset every current
entry's bounce fields, then apply each bounce row in order. -/
def update_subscriber_bouncing_info (subs : Registry) (rows : List BounceRow) :
    Except String Registry :=
  applyBounceRows (subs.map (fun kv => (kv.1, resetBouncingInfo kv.2))) rows

/-- `__update_bouncing_from_root(page_root)` after row extraction: `rows`
is the list of parsed bounce-table rows, empty both when the table has
no data rows and when the table element is absent (the `IndexError`
branch leaves `rows = None`; `if rows:` treats `None` and `[]` alike, so
the subscriber update only runs for a non-empty row list). -/
def update_bouncing_from_root (subs : Registry) (rows : List BounceRow) :
    Except String Registry :=
  if rows.isEmpty then Except.ok subs
  else update_subscriber_bouncing_info subs rows

/-- `get_bouncing()`: the email-to-subscriber pairs whose record is
currently bouncing. -/
def get_bouncing (subs : Registry) : Registry :=
  subs.filter (fun kv => kv.2.bouncing)

/-! ### Request payloads and per-operation request builders -/

/-- The form-data dictionaries built by `__add_subscriber_request`,
`__remove_subscriber_request` and `__reset_bouncing_request`, keyed by
their `action_*` field; the constant form fields (`quiet`, `used`,
`previous_action`, the action captions) are carried by the constructor
choice, the varying fields (`list`, `dump`/`email`) by its arguments. -/
inductive Request where
  | add (listName : String) (dump : String)
  | del (listName : String) (email : String)
  | resetBounce (listName : String) (email : String)
  deriving DecidableEq, Repr

/-- `__add_subscriber_request(email, real_name)`: the `dump` form field is
`'{} {}'.format(email, real_name).strip()`. -/
def add_subscriber_request (listName email realName : String) : Request :=
  .add listName (String.trim (email ++ " " ++ realName))

/-- `__remove_subscriber_request(email)`. -/
def remove_subscriber_request (listName email : String) : Request :=
  .del listName email

/-- `__reset_bouncing_request(email)`. -/
def reset_bouncing_request (listName email : String) : Request :=
  .resetBounce listName email

/-! ### Desired-subscriber input normalization (`__subs_from_obj`)

`set_subscribers` accepts a list of mixed items, a dictionary, or a file
path.  The Python runtime type inspection is modelled by a sum type over
the shapes the code distinguishes. -/

/-- For `set_subscribers` only the `email` and `name` attributes of a
desired subscriber are ever read, so desired entries are modelled by
this pair. -/
structure SubEntry where
  email : String
  name : String
  deriving DecidableEq, Repr

/-- An element of a list passed to `set_subscribers`, as discriminated by
`__subs_from_list`: a `Subscriber` object, a tuple (whose elements are
`some s` for a `str` element and `none` for anything else), a `str`, or
any other object. -/
inductive ListItem where
  | sub (email name : String)
  | tup (elems : List (Option String))
  | str (s : String)
  | other
  deriving DecidableEq, Repr

/-- A key of a dictionary passed to `set_subscribers`: a `str` or
anything else. -/
inductive DictKey where
  | str (s : String)
  | nonStr
  deriving DecidableEq, Repr

/-- A value of a dictionary passed to `set_subscribers`: a `str` name, a
`Subscriber` object, or anything else. -/
inductive DictVal where
  | str (s : String)
  | sub (email name : String)
  | other
  deriving DecidableEq, Repr

/-- An argument of `set_subscribers`, by Python runtime type.  For the
string case, `file = some lines` models `isfile` succeeding with the
given whitespace-split lines (each line already split into its
non-empty chunks, as `line.split()` produces), `file = none` models a
string that is not a path to an existing file. -/
inductive SubObj where
  | pyList (items : List ListItem)
  | pyDict (entries : List (DictKey × DictVal))
  | pyStr (s : String) (file : Option (List (List String)))
  | pyOther
  deriving DecidableEq, Repr

/-- The warning printed by `__subs_from_list` for an item it cannot
parse (the Python message interpolates the offending item). -/
def couldNotParseMsg : String := "Could not parse subscriber item"

/-- `__subs_from_list(subscribers)`: keep `Subscriber`s, build entries
from 2-tuples of strings and from bare strings (empty name), and log a
warning for everything else. -/
def subs_from_list (items : List ListItem) : List SubEntry × List String :=
  items.foldl
    (fun acc item =>
      match item with
      | .sub e n => (acc.1 ++ [⟨e, n⟩], acc.2)
      | .tup [some a, some b] => (acc.1 ++ [⟨a, b⟩], acc.2)
      | .tup _ => (acc.1, acc.2 ++ [couldNotParseMsg])
      | .str s => (acc.1 ++ [⟨s, ""⟩], acc.2)
      | .other => (acc.1, acc.2 ++ [couldNotParseMsg]))
    ([], [])

/-- `__subs_from_dict(subscribers)`: a `str: str` pair becomes a new
entry, a `str: Subscriber` pair keeps the subscriber, and every other
pair is skipped silently. -/
def subs_from_dict (entries : List (DictKey × DictVal)) : List SubEntry :=
  entries.foldl
    (fun acc kv =>
      match kv with
      | (.str k, .str v) => acc ++ [⟨k, v⟩]
      | (.str _, .sub e n) => acc ++ [⟨e, n⟩]
      | _ => acc)
    []

/-- `__subs_from_file(subscribers)`: each line yields
`email = chunks[0]` and `name = " ".join(chunks[1:])` (the chunks carry
no whitespace, so the trailing `.strip()` is the identity); a
whitespace-only line has no chunks and `chunks[0]` raises `IndexError`. -/
def subs_from_file (lines : List (List String)) :
    Except String (List SubEntry) :=
  lines.foldlM
    (fun acc chunks =>
      match chunks with
      | [] => Except.error "IndexError"
      | e :: restChunks =>
          Except.ok (acc ++ [⟨e, String.intercalate " " restChunks⟩]))
    []

/-- `all([type(x) is Subscriber for x in subs])`. -/
def allSubsList (items : List ListItem) : Bool :=
  items.all (fun i => match i with | .sub _ _ => true | _ => false)

/-- `all([type(x) is Subscriber for x in subs.values()])`. -/
def allSubsDict (entries : List (DictKey × DictVal)) : Bool :=
  entries.all (fun kv => match kv.2 with | .sub _ _ => true | _ => false)

/-- The inner `sub_list(subs)` of `__subs_from_obj`: a list of pure
`Subscriber`s is passed through, another list goes through
`__subs_from_list`; a dict whose values are all `Subscriber`s yields its
values, another dict goes through `__subs_from_dict`; a string naming an
existing file goes through `__subs_from_file`, and everything else
normalizes to `[]`.  The second component collects the warnings printed
along the way. -/
def sub_list_of (o : SubObj) : Except String (List SubEntry × List String) :=
  match o with
  | .pyList items =>
      if allSubsList items then
        Except.ok
          (items.filterMap
            (fun i => match i with | .sub e n => some ⟨e, n⟩ | _ => none), [])
      else Except.ok (subs_from_list items)
  | .pyDict entries =>
      if allSubsDict entries then
        Except.ok
          (entries.filterMap
            (fun kv => match kv.2 with | .sub e n => some ⟨e, n⟩ | _ => none),
            [])
      else Except.ok (subs_from_dict entries, [])
  | .pyStr _ (some lines) => (subs_from_file lines).map (fun l => (l, []))
  | .pyStr _ none => Except.ok ([], [])
  | .pyOther => Except.ok ([], [])

/-- The inner `__sub_d(list_of_Subscribers)` of `__subs_from_obj`:
`dictionary[sub.email] = sub` for each entry in order. -/
def sub_d (l : List SubEntry) : List (String × SubEntry) :=
  l.foldl (fun d sub => dinsert d sub.email sub) []

/-- `__subs_from_obj(subscribers)`: normalize, then key by email. -/
def subs_from_obj (o : SubObj) :
    Except String (List (String × SubEntry) × List String) :=
  (sub_list_of o).map (fun pr => (sub_d pr.1, pr.2))

/-! ### `set_subscribers` reconciliation -/

/-- The observable outcome of one `set_subscribers` call: the
`additions` list of `{'email', 'real_name'}` pairs, the `deletions`
email list, the combined request batch, whether the batch was handed to
`__send_concurrent_requests` (the code skips dispatch and refresh when
`requests` is empty), and the warnings printed during normalization. -/
structure SetSubsResult where
  additions : List (String × String)
  deletions : List String
  requests : List Request
  dispatched : Bool
  logs : List String
  deriving DecidableEq, Repr

/-- The list comprehension `[__to_dict(subscribers[x]) for x in add_m]`:
each addition is the `{'email', 'real_name'}` pair of the normalized
entry stored under `x`; `subscribers[x]` raises `KeyError` were the key
absent, modelled by `Except.error`. -/
def additionsOf (subscribers : List (String × SubEntry)) :
    List String → Except String (List (String × String))
  | [] => Except.ok []
  | x :: xs =>
      match dlookup subscribers x with
      | some s =>
          match additionsOf subscribers xs with
          | Except.ok rest => Except.ok ((s.email, s.name) :: rest)
          | Except.error err => Except.error err
      | none => Except.error ("KeyError: " ++ x)

/-- `set_subscribers(sub_obj)` up to the dispatch decision: normalize the
input, diff the input emails against the registry keys, and build the
add and delete request batches.  Exceptions raised during normalization
or lookup propagate. -/
def set_subscribers (listName : String) (cur : Registry) (o : SubObj) :
    Except String SetSubsResult :=
  match subs_from_obj o with
  | Except.error err => Except.error err
  | Except.ok pr =>
      match additionsOf pr.1
          (((pr.1.map Prod.snd).map SubEntry.email).filter
            (fun x => !((dkeys cur).contains x))) with
      | Except.error err => Except.error err
      | Except.ok additions =>
          let emails := (pr.1.map Prod.snd).map SubEntry.email
          let deletions := (dkeys cur).filter (fun x => !(emails.contains x))
          let add_requests :=
            additions.map (fun p => add_subscriber_request listName p.1 p.2)
          let del_requests :=
            deletions.map (fun e => remove_subscriber_request listName e)
          let requests := add_requests ++ del_requests
          Except.ok ⟨additions, deletions, requests, !requests.isEmpty, pr.2⟩

/-! ### Staleness policy (`__needs_update`) -/

/-- `UPDATE_MINS`: refresh interval in minutes. -/
def UPDATE_MINS : Nat := 5

/-- A fetched page, as far as the refresh logic observes it: its raw
text and its Python object identity (`requests.Response` defines no
`__eq__`, so `!=` between two page objects compares identities). -/
structure Page where
  objId : Nat
  text : String
  deriving DecidableEq, Repr

/-- The fields of a `MailingList` instance consulted by
`__needs_update`: the cached pages (`none` before the first fetch), the
registry, and `_last_updated` as seconds on a monotone clock. -/
structure MLState where
  review : Option Page
  review_bouncing : Option Page
  subscribers : Registry
  last_updated : Nat
  deriving Repr

/-- `__needs_update()`: true when the review page was never fetched, the
registry is falsy (empty), the bouncing page is falsy (never fetched),
or more than `UPDATE_MINS` minutes elapsed since `_last_updated`.  A
pure function of the instance state and the clock. -/
def needs_update (st : MLState) (now : Nat) : Bool :=
  let outdated := decide (now - st.last_updated > UPDATE_MINS * 60)
  st.review.isNone || st.subscribers.isEmpty ||
    st.review_bouncing.isNone || outdated

/-! ### Poll-until-changed loops

The `wait_for_update` loops re-fetch a page until a break condition
holds or the timeout elapses.  The successive fetch results that the
clock allows before the timeout are modelled by a list; an empty list
means the deadline had already passed.  Each function returns the page
the registry rebuild then runs against. -/

/-- The loop body of `__update_from_review`: `cur` is the current
`self.review`; each fetch replaces it, and the loop breaks when the new
fetch's text differs from the pre-loop snapshot's text. -/
def review_wait_aux (orig cur : Page) : List Page → Page
  | [] => cur
  | f :: rest =>
      if f.text ≠ orig.text then f else review_wait_aux orig f rest

/-- `__update_from_review(wait_for_update=True)`: poll starting from the
cached page `orig`. -/
def review_wait (orig : Page) (fetches : List Page) : Page :=
  review_wait_aux orig orig fetches

/-- The loop body of `__update_from_review_bouncing`: each fetch
replaces `self.review_bouncing`, but the break condition the code tests
is `self.review != page` — the cached *review* page against the
pre-loop *bouncing* snapshot, compared by object identity. -/
def review_bouncing_wait_aux (review orig cur : Page) : List Page → Page
  | [] => cur
  | f :: rest =>
      if review.objId ≠ orig.objId then f
      else review_bouncing_wait_aux review orig f rest

/-- `__update_from_review_bouncing(wait_for_update=True)`: poll starting
from the cached bouncing page `orig`, with the cached review page
`review` in scope. -/
def review_bouncing_wait (review orig : Page) (fetches : List Page) : Page :=
  review_bouncing_wait_aux review orig orig fetches

/-! ### Admin-privilege gate (`Sympal/MailingList_Meta.py`) -/

/-- `MailingList_Meta.ADMIN_METHODS`: the method names the metaclass
wraps with `check_populated_before_exec`. -/
def ADMIN_METHODS : List String :=
  ["get_subscribers_email_list",
   "get_bouncing_email_list",
   "get_subscribers",
   "get_bouncing",
   "set_subscribers",
   "add_subscriber",
   "remove_subscriber",
   "reset_bouncing",
   "reset_bouncing_subscriber",
   "remove_bouncing_subscribers"]

/-- The per-list operations the core exposes to callers (spec section 6). -/
def exposedOps : List String :=
  ["update",
   "get_subscribers",
   "get_bouncing",
   "get_subscribers_email_list",
   "get_bouncing_email_list",
   "set_subscribers",
   "add_subscriber",
   "remove_subscriber",
   "reset_bouncing",
   "reset_bouncing_subscriber",
   "remove_bouncing_subscribers"]

/-- `MailingList_Meta.AUTHMSG.format(name)`. -/
def authMsg (name : String) : String :=
  "The current user is not an administrator of the list " ++ name ++
    ". Access Denied."

/-- What a wrapped method call produces: the wrapped method's return
value (or `None`), the gateway requests issued by the method body, and
the lines printed to stderr. -/
structure GatedResult (α : Type) where
  value : Option α
  bodyRequests : List Request
  log : List String
  deriving Repr

/-- `check_populated_before_exec(self, ...)` after the initial
`self.update()`: if `self._admin` run the wrapped method (whose return
value and gateway requests are `body`), otherwise print `AUTHMSG` and
return `None` without running the body. -/
def check_populated_before_exec {α : Type} (admin : Bool) (listName : String)
    (body : α × List Request) : GatedResult α :=
  if admin then ⟨some body.1, body.2, []⟩
  else ⟨none, [], [authMsg listName]⟩

/-! ### Bounded concurrent dispatcher (`__send_concurrent_requests`)

The dispatcher spawns `W = Sympa.MAX_CONCURRENT_REQUEST_THREADS` worker
threads over a `Queue(2 * W)`, enqueues every request, calls `q.join()`,
enqueues one `None` sentinel per worker, and joins the threads.  Its
concurrent execution is modelled by an interleaving transition system:
one state records the main thread's position, the queue contents, the
queue's `unfinished_tasks` counter, each worker's position, and the
payloads submitted to the gateway so far.  Each transition is one atomic
action of one thread; any interleaving of enabled actions is a possible
execution. -/

/-- `Sympa.MAX_CONCURRENT_REQUEST_THREADS`. -/
def MAX_CONCURRENT_REQUEST_THREADS : Nat := 4

/-- Position of one worker thread inside its `while True` loop:
about to call `q.get()`; holding payload `d` and about to post it;
having posted `d` and about to call `q.task_done()`; or terminated
after dequeuing the `None` sentinel. -/
inductive WorkerState where
  | idle
  | hasData (d : Request)
  | postedData (d : Request)
  | stopped
  deriving DecidableEq, Repr

/-- Position of the dispatcher's caller thread: enqueueing the remaining
requests; blocked in `q.join()`; enqueueing the remaining `None`
sentinels; joining the worker threads from index `k` on; or returned. -/
inductive MainState where
  | putting (rest : List Request)
  | joiningQueue
  | puttingNones (k : Nat)
  | joiningThreads (k : Nat)
  | returned
  deriving DecidableEq, Repr

/-- A global state of one `__send_concurrent_requests` call. -/
structure DState where
  main : MainState
  queue : List (Option Request)
  unfinished : Nat
  workers : List WorkerState
  posted : List Request
  deriving DecidableEq, Repr

/-- The state right after the worker threads are started and before the
first `q.put`: empty queue, `W` idle workers, nothing posted. -/
def initState (W : Nat) (requests : List Request) : DState :=
  ⟨.putting requests, [], 0, List.replicate W .idle, []⟩

/-- One atomic action of the dispatcher call, by either the main thread
or one worker.  `q.put` blocks while the queue holds `2 * W` items and
increments `unfinished_tasks`; `q.get` pops the front; `q.task_done`
decrements `unfinished_tasks`; `q.join()` proceeds only at
`unfinished_tasks = 0`; `t.join()` proceeds only once that worker has
terminated.  A worker decomposition `l₁ ++ w :: l₂` identifies the
acting worker by position. -/
inductive DStep (W : Nat) : DState → DState → Prop where
  | mainPut (r : Request) (rest : List Request) (q : List (Option Request))
      (u : Nat) (ws : List WorkerState) (p : List Request)
      (hq : q.length < 2 * W) :
      DStep W ⟨.putting (r :: rest), q, u, ws, p⟩
        ⟨.putting rest, q ++ [some r], u + 1, ws, p⟩
  | mainFinishPuts (q : List (Option Request)) (u : Nat)
      (ws : List WorkerState) (p : List Request) :
      DStep W ⟨.putting [], q, u, ws, p⟩ ⟨.joiningQueue, q, u, ws, p⟩
  | mainJoinQueue (q : List (Option Request)) (ws : List WorkerState)
      (p : List Request) :
      DStep W ⟨.joiningQueue, q, 0, ws, p⟩ ⟨.puttingNones W, q, 0, ws, p⟩
  | mainPutNone (k : Nat) (q : List (Option Request)) (u : Nat)
      (ws : List WorkerState) (p : List Request) (hq : q.length < 2 * W) :
      DStep W ⟨.puttingNones (k + 1), q, u, ws, p⟩
        ⟨.puttingNones k, q ++ [none], u + 1, ws, p⟩
  | mainFinishNones (q : List (Option Request)) (u : Nat)
      (ws : List WorkerState) (p : List Request) :
      DStep W ⟨.puttingNones 0, q, u, ws, p⟩ ⟨.joiningThreads 0, q, u, ws, p⟩
  | mainJoinThread (k : Nat) (q : List (Option Request)) (u : Nat)
      (ws : List WorkerState) (p : List Request)
      (hk : ws[k]? = some .stopped) :
      DStep W ⟨.joiningThreads k, q, u, ws, p⟩
        ⟨.joiningThreads (k + 1), q, u, ws, p⟩
  | mainReturn (q : List (Option Request)) (u : Nat) (ws : List WorkerState)
      (p : List Request) :
      DStep W ⟨.joiningThreads ws.length, q, u, ws, p⟩ ⟨.returned, q, u, ws, p⟩
  | workerGet (m : MainState) (x : Option Request)
      (rest : List (Option Request)) (u : Nat) (l₁ l₂ : List WorkerState)
      (p : List Request) :
      DStep W ⟨m, x :: rest, u, l₁ ++ .idle :: l₂, p⟩
        ⟨m, rest, u,
          l₁ ++ (match x with
                 | none => WorkerState.stopped
                 | some d => WorkerState.hasData d) :: l₂, p⟩
  | workerPost (m : MainState) (q : List (Option Request)) (u : Nat)
      (l₁ l₂ : List WorkerState) (p : List Request) (d : Request) :
      DStep W ⟨m, q, u, l₁ ++ .hasData d :: l₂, p⟩
        ⟨m, q, u, l₁ ++ .postedData d :: l₂, p ++ [d]⟩
  | workerTaskDone (m : MainState) (q : List (Option Request)) (u : Nat)
      (l₁ l₂ : List WorkerState) (p : List Request) (d : Request) :
      DStep W ⟨m, q, u + 1, l₁ ++ .postedData d :: l₂, p⟩
        ⟨m, q, u, l₁ ++ .idle :: l₂, p⟩

/-- The states one `__send_concurrent_requests(requests)` call with pool
size `W` can reach. -/
def DReachable (W : Nat) (requests : List Request) (s : DState) : Prop :=
  Relation.ReflTransGen (DStep W) (initState W requests) s

/-- The real payloads currently sitting in the queue. -/
def queueSomes (q : List (Option Request)) : List Request :=
  q.filterMap id

/-- The payload a worker holds before having posted it. -/
def heldOf : WorkerState → List Request
  | .hasData d => [d]
  | _ => []

/-- The payloads held by workers that have dequeued but not yet posted. -/
def held (ws : List WorkerState) : List Request :=
  ws.flatMap heldOf

/-- Whether a worker has posted but not yet called `task_done`. -/
def isPostedSt : WorkerState → Bool
  | .postedData _ => true
  | _ => false

/-- Whether a worker has terminated. -/
def isStopped : WorkerState → Bool
  | .stopped => true
  | _ => false

/-- Number of workers between their post and their `task_done`. -/
def numPostedSt (ws : List WorkerState) : Nat :=
  ws.countP isPostedSt

/-- Number of terminated workers. -/
def numStopped (ws : List WorkerState) : Nat :=
  ws.countP isStopped

/-- Number of `None` sentinels currently in the queue. -/
def queueNones (q : List (Option Request)) : Nat :=
  q.countP Option.isNone

/-- The requests the main thread has not yet enqueued. -/
def pendingPuts : MainState → List Request
  | .putting rest => rest
  | _ => []

/-- How many `None` sentinels the main thread has enqueued so far. -/
def nonesPut (W : Nat) : MainState → Nat
  | .putting _ => 0
  | .joiningQueue => 0
  | .puttingNones k => W - k
  | .joiningThreads _ => W
  | .returned => W

/-- Whether the main thread has passed `q.join()`. -/
def latePhase : MainState → Prop
  | .puttingNones _ => True
  | .joiningThreads _ => True
  | .returned => True
  | _ => False

/-! ## Dictionary lemmas -/

theorem dlookup_dinsert_of_ne {α : Type} (m : List (String × α)) (k e : String)
    (v : α) (h : k ≠ e) : dlookup (dinsert m k v) e = dlookup m e := by
  induction m with
  | nil => simp [dinsert, dlookup, h]
  | cons kv rest ih =>
      obtain ⟨k0, v0⟩ := kv
      by_cases hk : k0 = k
      · subst hk
        simp [dinsert, dlookup, h]
      · by_cases he : k0 = e
        · subst he
          simp [dinsert, dlookup, hk]
        · simp [dinsert, dlookup, hk, he, ih]

theorem dlookup_dinsert_self {α : Type} (m : List (String × α)) (k : String)
    (v : α) : dlookup (dinsert m k v) k = some v := by
  induction m with
  | nil => simp [dinsert, dlookup]
  | cons kv rest ih =>
      obtain ⟨k0, v0⟩ := kv
      by_cases hk : k0 = k
      · simp [dinsert, dlookup, hk]
      · simp [dinsert, dlookup, hk, ih]

theorem dlookup_map_value {α β : Type} (f : α → β) (m : List (String × α))
    (e : String) :
    dlookup (m.map fun kv => (kv.1, f kv.2)) e = (dlookup m e).map f := by
  induction m with
  | nil => simp [dlookup]
  | cons kv rest ih =>
      obtain ⟨k0, v0⟩ := kv
      by_cases he : k0 = e
      · simp [dlookup, he]
      · simp [dlookup, he, ih]

theorem dlookup_filter_key {α : Type} (m : List (String × α))
    (c : String → Bool) (e : String) :
    dlookup (m.filter fun kv => c kv.1) e =
      if c e then dlookup m e else none := by
  induction m with
  | nil => simp [dlookup]
  | cons kv rest ih =>
      obtain ⟨k0, v0⟩ := kv
      by_cases he : k0 = e
      · subst he
        by_cases hc : c k0 <;> simp [dlookup, hc, ih]
      · by_cases hc : c k0 <;> simp [dlookup, he, hc, ih]

theorem mem_dkeys_iff_isSome {α : Type} (m : List (String × α)) (e : String) :
    e ∈ dkeys m ↔ (dlookup m e).isSome := by
  induction m with
  | nil => simp [dkeys, dlookup]
  | cons kv rest ih =>
      obtain ⟨k0, v0⟩ := kv
      by_cases he : k0 = e
      · simp [dkeys, dlookup, he]
      · rw [show dlookup ((k0, v0) :: rest) e = dlookup rest e by
            simp [dlookup, he]]
        rw [← ih]
        simp [dkeys, Ne.symm he]

theorem mem_dkeys_dinsert {α : Type} (m : List (String × α)) (k e : String)
    (v : α) : e ∈ dkeys (dinsert m k v) ↔ e ∈ dkeys m ∨ e = k := by
  induction m with
  | nil => simp [dinsert, dkeys, eq_comm]
  | cons kv rest ih =>
      obtain ⟨k0, v0⟩ := kv
      by_cases hk : k0 = k
      · subst hk
        simp [dinsert, dkeys]
        by_cases he : e = k0
        · simp [he]
        · simp [he, Ne.symm he]
      · simp [dinsert, hk, dkeys] at ih ⊢
        tauto

/-! ## Claim C7: the staleness predicate -/

/-- Claim C7: `__needs_update` is true exactly when the review page was
never fetched, the subscriber registry is empty, the bouncing page was
never fetched, or more than `UPDATE_MINS = 5` minutes (300 seconds on
the model clock) have passed since the last refresh; being a Lean
function of the state and the clock, it has no side effects. -/
theorem claim_C7 (st : MLState) (now : Nat) :
    needs_update st now = true ↔
      (st.review = none ∨ st.subscribers = [] ∨ st.review_bouncing = none ∨
        now - st.last_updated > UPDATE_MINS * 60) := by
  simp [needs_update, Option.isNone_iff_eq_none, List.isEmpty_iff, or_assoc]

/-! ## Claim C2: the bounce pass and stale bounce state -/

/-- A subscriber record that is bouncing (as left by a previous bounce
pass). -/
def cSub : Subscriber :=
  { email := "c@x.com", name := "C", picture := "", reception := "mail",
    sources := "", sub_date := 0, last_update := 0,
    bouncing := true, bounce_score := "42.0", bounce_count := .strVal "3",
    first_bounce := some 1, last_bounce := some 2 }

/-- Claim C2 counterexample: with `c@x.com` bouncing from a previous
pass, a bounce pass with zero rows (`__update_bouncing_from_root` with
an empty or absent table) returns the registry unchanged, so the entry —
whose email is not among the (empty) pass rows — still has
`bouncing = true` and `get_bouncing()` is not the empty mapping. -/
theorem claim_C2_counterexample :
    update_bouncing_from_root [("c@x.com", cSub)] [] =
        Except.ok [("c@x.com", cSub)] ∧
      get_bouncing [("c@x.com", cSub)] = [("c@x.com", cSub)] ∧
      get_bouncing [("c@x.com", cSub)] ≠ [] ∧
      cSub.bouncing = true := by
  refine ⟨rfl, rfl, ?_, rfl⟩
  decide

theorem bounce_rows_lookup (rows : List BounceRow) (m m' : Registry)
    (e : String) (hok : applyBounceRows m rows = Except.ok m')
    (he : e ∉ rows.map BounceRow.email) :
    dlookup m' e = dlookup m e := by
  induction rows generalizing m with
  | nil =>
      cases hok
      rfl
  | cons r rs ih =>
      simp only [List.map_cons, List.mem_cons, not_or] at he
      rw [applyBounceRows] at hok
      cases hdl : dlookup m r.email with
      | none =>
          rw [hdl] at hok
          cases hok
      | some s =>
          rw [hdl] at hok
          rw [ih _ hok he.2,
            dlookup_dinsert_of_ne _ _ _ _ (fun h => he.1 h.symm)]

/-- Claim C2 (amended): a *non-empty* bounce pass that completes without
a `KeyError` leaves every registry entry whose email is not among the
pass's rows reset to the default bounce fields; a pass with zero bounce
rows, however, leaves the registry (and hence `get_bouncing()`)
unchanged rather than resetting it. -/
theorem claim_C2_amended :
    (∀ (subs : Registry) (rows : List BounceRow) (m : Registry) (e : String),
        rows ≠ [] →
        update_bouncing_from_root subs rows = Except.ok m →
        e ∉ rows.map BounceRow.email →
        dlookup m e = (dlookup subs e).map resetBouncingInfo) ∧
      ∀ subs : Registry, update_bouncing_from_root subs [] = Except.ok subs := by
  constructor
  · intro subs rows m e hne hok he
    rw [update_bouncing_from_root, if_neg (by simpa using hne),
      update_subscriber_bouncing_info] at hok
    rw [bounce_rows_lookup rows _ m e hok he, dlookup_map_value]
  · intro subs
    rfl

/-- Claim C2 amended, witness: a two-row-registry, one-row bounce pass
resets the untouched entry, and the zero-row pass is the identity. -/
theorem claim_C2_amended_witness :
    dlookup
        (match update_bouncing_from_root
            [("a@x.com", newSubscriber ⟨"a@x.com", "", "A", "mail", "", 0, 0⟩),
             ("c@x.com", cSub)]
            [⟨"a@x.com", "1.5", "3", 11, 21⟩] with
         | Except.ok m => m
         | Except.error _ => []) "c@x.com" =
      (dlookup
          [("a@x.com", newSubscriber ⟨"a@x.com", "", "A", "mail", "", 0, 0⟩),
           ("c@x.com", cSub)] "c@x.com").map resetBouncingInfo := by
  have h :=
    claim_C2_amended.1
      [("a@x.com", newSubscriber ⟨"a@x.com", "", "A", "mail", "", 0, 0⟩),
       ("c@x.com", cSub)]
      [⟨"a@x.com", "1.5", "3", 11, 21⟩]
      (match update_bouncing_from_root
          [("a@x.com", newSubscriber ⟨"a@x.com", "", "A", "mail", "", 0, 0⟩),
           ("c@x.com", cSub)]
          [⟨"a@x.com", "1.5", "3", 11, 21⟩] with
       | Except.ok m => m
       | Except.error _ => [])
      "c@x.com" (by decide) (by rfl) (by decide)
  exact h

/-! ## Claim C5: bounce row for an unknown email -/

/-- A non-bouncing subscriber record for `a@x.com`. -/
def aSub : Subscriber :=
  newSubscriber ⟨"a@x.com", "", "A", "mail", "", 0, 0⟩

/-- Claim C5, evaluation at the failing input: a bounce pass whose first
row references `b@x.com`, absent from the registry, raises `KeyError`
(`Except.error`) instead of warning and skipping, and the later row for
the present `a@x.com` is never applied. -/
theorem claim_C5_code_raises :
    update_subscriber_bouncing_info [("a@x.com", aSub)]
        [⟨"b@x.com", "1.0", "2", 10, 20⟩, ⟨"a@x.com", "1.5", "3", 11, 21⟩] =
      Except.error "KeyError: b@x.com" := by
  rfl

/-! ## Claim C6: the admin-privilege gate -/

/-- Claim C6 counterexample: all four read accessors are listed in
`ADMIN_METHODS`, so the metaclass wraps them with the admin gate,
contradicting the claim that the read accessors are not subject to it. -/
theorem claim_C6_counterexample :
    "get_subscribers" ∈ ADMIN_METHODS ∧ "get_bouncing" ∈ ADMIN_METHODS ∧
      "get_subscribers_email_list" ∈ ADMIN_METHODS ∧
      "get_bouncing_email_list" ∈ ADMIN_METHODS := by
  decide

/-- Claim C6 (amended): every exposed per-list operation except `update`
— including the read accessors — is gated by the admin-privilege check,
and when the check fails the wrapper prints the denial message, returns
`None`, and never runs the operation body (so none of the body's gateway
requests are issued). -/
theorem claim_C6_amended :
    (∀ m ∈ exposedOps, m ≠ "update" → m ∈ ADMIN_METHODS) ∧
      "update" ∉ ADMIN_METHODS ∧
      ∀ (α : Type) (listName : String) (body : α × List Request),
        check_populated_before_exec false listName body =
          ⟨none, [], [authMsg listName]⟩ := by
  refine ⟨by decide, by decide, ?_⟩
  intro α listName body
  rfl

/-- Claim C6 amended, witness at `get_subscribers` and a concrete denied
call. -/
theorem claim_C6_amended_witness :
    "get_subscribers" ∈ ADMIN_METHODS ∧
      check_populated_before_exec false "mylist" ((0 : Nat), []) =
        ⟨none, [], [authMsg "mylist"]⟩ :=
  ⟨claim_C6_amended.1 "get_subscribers" (by decide) (by decide),
   claim_C6_amended.2.2 Nat "mylist" (0, [])⟩

/-! ## Claim C8: the poll-until-changed loops -/

/-- The cached review page during a bouncing poll. -/
def reviewPage : Page := ⟨0, "review-content"⟩

/-- The pre-loop snapshot of the bouncing page. -/
def bouncingSnapshot : Page := ⟨1, "bouncing-old"⟩

/-- First re-fetch of the bouncing page: same text as the snapshot. -/
def bounceFetch1 : Page := ⟨2, "bouncing-old"⟩

/-- Second re-fetch of the bouncing page: changed text. -/
def bounceFetch2 : Page := ⟨3, "bouncing-new"⟩

/-- Claim C8, evaluation at the failing input: in the review-bouncing
poll the code compares the cached *review* page against the bouncing
snapshot by object identity (`self.review != page`), so with the
unchanged-text fetch `bounceFetch1` available the loop exits immediately
and returns it; the claimed raw-text rule (the one `__update_from_review`
implements, `review_wait`) would have kept polling to `bounceFetch2`. -/
theorem claim_C8_code_bug :
    review_bouncing_wait reviewPage bouncingSnapshot
        [bounceFetch1, bounceFetch2] = bounceFetch1 ∧
      bounceFetch1.text = bouncingSnapshot.text ∧
      review_wait bouncingSnapshot [bounceFetch1, bounceFetch2] =
        bounceFetch2 ∧
      bounceFetch1 ≠ bounceFetch2 := by
  refine ⟨by decide, rfl, by decide, by decide⟩

/-! ## Claim C3: the merge/prune pass determines the key set -/

theorem rowsStep_snd (acc : Registry × List String) (r : SubRow) :
    (rowsStep acc r).2 = acc.2 ++ [r.email] := by
  cases hdl : dlookup acc.1 r.email <;> simp [rowsStep, hdl]

theorem rowsFold_snd (rows : List SubRow) (acc : Registry × List String) :
    (rows.foldl rowsStep acc).2 = acc.2 ++ rows.map SubRow.email := by
  induction rows generalizing acc with
  | nil => simp
  | cons r rs ih =>
      rw [List.foldl_cons, ih, rowsStep_snd, List.append_assoc]
      rfl

theorem mem_dkeys_rowsStep (acc : Registry × List String) (r : SubRow)
    (e : String) :
    e ∈ dkeys (rowsStep acc r).1 ↔ e ∈ dkeys acc.1 ∨ e = r.email := by
  cases hdl : dlookup acc.1 r.email with
  | some s => simp [rowsStep, hdl, mem_dkeys_dinsert]
  | none => simp [rowsStep, hdl, dkeys]

theorem mem_dkeys_rowsFold (rows : List SubRow) (acc : Registry × List String)
    (e : String) :
    e ∈ dkeys (rows.foldl rowsStep acc).1 ↔
      e ∈ dkeys acc.1 ∨ e ∈ rows.map SubRow.email := by
  induction rows generalizing acc with
  | nil => simp
  | cons r rs ih =>
      rw [List.foldl_cons, ih, mem_dkeys_rowsStep]
      simp
      tauto

theorem mem_dkeys_filter_key {α : Type} (m : List (String × α))
    (c : String → Bool) (e : String) :
    e ∈ dkeys (m.filter fun kv => c kv.1) ↔ e ∈ dkeys m ∧ c e := by
  rw [mem_dkeys_iff_isSome, dlookup_filter_key, mem_dkeys_iff_isSome]
  by_cases hc : c e <;> simp [hc]

/-- Claim C3: in a subscriber-row pass over a non-empty registry, the
resulting key set is exactly the set of emails of the pass's rows; over
an empty registry no pruning step runs (the result is the bare fold),
and a zero-row pass on an empty registry yields an empty registry. -/
theorem claim_C3 :
    (∀ (subs0 : Registry) (rows : List SubRow) (e : String), subs0 ≠ [] →
        (e ∈ dkeys (rows_to_Subscribers subs0 rows) ↔
          e ∈ rows.map SubRow.email)) ∧
      (∀ rows : List SubRow,
          rows_to_Subscribers [] rows = (rows.foldl rowsStep ([], [])).1) ∧
      rows_to_Subscribers [] [] = [] := by
  refine ⟨?_, ?_, rfl⟩
  · intro subs0 rows e hne
    rw [rows_to_Subscribers, if_neg (by simp [List.isEmpty_iff, hne])]
    rw [mem_dkeys_filter_key, mem_dkeys_rowsFold, rowsFold_snd]
    simp only [List.nil_append, List.elem_eq_mem, decide_eq_true_eq]
    constructor
    · rintro ⟨_, hm⟩
      exact hm
    · intro hm
      exact ⟨Or.inr hm, hm⟩
  · intro rows
    rfl

/-- A review-page row for `b@x.com`, used in witnesses. -/
def bRowS : SubRow := ⟨"b@x.com", "", "B", "mail", "", 0, 0⟩

/-- Claim C3 witness: a pass with a single `b@x.com` row over a registry
holding only `a@x.com`. -/
theorem claim_C3_witness :
    ([("a@x.com", aSub)] : Registry) ≠ [] ∧
      ("b@x.com" ∈ dkeys (rows_to_Subscribers [("a@x.com", aSub)] [bRowS]) ↔
        "b@x.com" ∈ [bRowS].map SubRow.email) :=
  ⟨by decide, claim_C3.1 [("a@x.com", aSub)] [bRowS] "b@x.com" (by decide)⟩

/-! ## Claim C4: subscriber-info merge is a bounce-field frame and
idempotent -/

theorem dlookup_append_left {α : Type} (m m₂ : List (String × α)) (e : String)
    (v : α) (h : dlookup m e = some v) : dlookup (m ++ m₂) e = some v := by
  induction m with
  | nil => cases h
  | cons kv rest ih =>
      obtain ⟨k0, v0⟩ := kv
      by_cases he : k0 = e
      · rw [dlookup, if_pos he] at h
        simp [dlookup, he, h]
      · rw [dlookup, if_neg he] at h
        simp [dlookup, he, ih h]

theorem rowsStep_of_lookup_some (acc : Registry × List String) (r : SubRow)
    (s : Subscriber) (h : dlookup acc.1 r.email = some s) :
    (rowsStep acc r).1 = dinsert acc.1 r.email (update_subscriber_info s r) := by
  simp [rowsStep, h]

theorem rowsStep_of_lookup_none (acc : Registry × List String) (r : SubRow)
    (h : dlookup acc.1 r.email = none) :
    (rowsStep acc r).1 = acc.1 ++ [(r.email, newSubscriber r)] := by
  simp [rowsStep, h]

theorem rowsFold_bounce_frame (rows : List SubRow)
    (acc : Registry × List String) (e : String) (s : Subscriber)
    (h : dlookup acc.1 e = some s) :
    ∃ t, dlookup (rows.foldl rowsStep acc).1 e = some t ∧
      t.bouncing = s.bouncing ∧ t.bounce_score = s.bounce_score ∧
      t.bounce_count = s.bounce_count ∧ t.first_bounce = s.first_bounce ∧
      t.last_bounce = s.last_bounce := by
  induction rows generalizing acc s with
  | nil => exact ⟨s, h, rfl, rfl, rfl, rfl, rfl⟩
  | cons r rs ih =>
      rw [List.foldl_cons]
      by_cases he : e = r.email
      · have hr : dlookup acc.1 r.email = some s := he ▸ h
        have hstep :
            dlookup (rowsStep acc r).1 e =
              some (update_subscriber_info s r) := by
          rw [rowsStep_of_lookup_some acc r s hr, he]
          exact dlookup_dinsert_self _ _ _
        exact ih (rowsStep acc r) (update_subscriber_info s r) hstep
      · have hstep : dlookup (rowsStep acc r).1 e = some s := by
          cases hdl : dlookup acc.1 r.email with
          | some u =>
              rw [rowsStep_of_lookup_some acc r u hdl]
              exact (dlookup_dinsert_of_ne _ _ _ _
                (fun hh => he hh.symm)).trans h
          | none =>
              rw [rowsStep_of_lookup_none acc r hdl]
              exact dlookup_append_left _ _ _ _ h
        exact ih (rowsStep acc r) s hstep

/-- Claim C4: `update_subscriber_info` rewrites only the subscriber-info
fields — the five bounce fields are untouched — and applying the same
row twice gives the same record as applying it once; consequently a full
`__rows_to_Subscribers` pass never alters the bounce fields of an entry
that survives it. -/
theorem claim_C4 :
    (∀ (s : Subscriber) (r : SubRow),
        (update_subscriber_info s r).bouncing = s.bouncing ∧
        (update_subscriber_info s r).bounce_score = s.bounce_score ∧
        (update_subscriber_info s r).bounce_count = s.bounce_count ∧
        (update_subscriber_info s r).first_bounce = s.first_bounce ∧
        (update_subscriber_info s r).last_bounce = s.last_bounce ∧
        update_subscriber_info (update_subscriber_info s r) r =
          update_subscriber_info s r) ∧
      ∀ (subs0 : Registry) (rows : List SubRow) (e : String)
        (s t : Subscriber), dlookup subs0 e = some s →
        dlookup (rows_to_Subscribers subs0 rows) e = some t →
        t.bouncing = s.bouncing ∧ t.bounce_score = s.bounce_score ∧
        t.bounce_count = s.bounce_count ∧ t.first_bounce = s.first_bounce ∧
        t.last_bounce = s.last_bounce := by
  refine ⟨fun s r => ⟨rfl, rfl, rfl, rfl, rfl, rfl⟩, ?_⟩
  intro subs0 rows e s t hs ht
  have hne : subs0 ≠ [] := by
    intro h
    rw [h] at hs
    cases hs
  rw [rows_to_Subscribers, if_neg (by simp [List.isEmpty_iff, hne])] at ht
  rw [dlookup_filter_key] at ht
  obtain ⟨u, hu, hb⟩ := rowsFold_bounce_frame rows (subs0, []) e s hs
  by_cases hc : (rows.foldl rowsStep (subs0, [])).2.contains e
  · rw [if_pos hc] at ht
    rw [ht] at hu
    cases hu
    exact hb
  · rw [if_neg hc] at ht
    cases ht

/-- A later review-page row for `c@x.com` with new subscriber info. -/
def rowC : SubRow := ⟨"c@x.com", "pic", "C New", "digest", "src", 5, 6⟩

/-- Claim C4 witness: merging `rowC` over the bouncing record `cSub`
keeps its bounce fields. -/
theorem claim_C4_witness :
    dlookup [("c@x.com", cSub)] "c@x.com" = some cSub ∧
      ((update_subscriber_info cSub rowC).bouncing = cSub.bouncing ∧
        (update_subscriber_info cSub rowC).bounce_score = cSub.bounce_score ∧
        (update_subscriber_info cSub rowC).bounce_count = cSub.bounce_count ∧
        (update_subscriber_info cSub rowC).first_bounce = cSub.first_bounce ∧
        (update_subscriber_info cSub rowC).last_bounce = cSub.last_bounce) :=
  ⟨rfl,
   claim_C4.2 [("c@x.com", cSub)] [rowC] "c@x.com" cSub
     (update_subscriber_info cSub rowC) rfl (by rfl)⟩

/-! ## Claims C10 and C1: `set_subscribers` reconciliation -/

theorem isEmpty_map {α β : Type} (f : α → β) (l : List α) :
    (l.map f).isEmpty = l.isEmpty := by
  cases l <;> rfl

theorem contains_eq_decide_mem (l : List String) (a : String) :
    l.contains a = decide (a ∈ l) :=
  List.elem_eq_mem a l

theorem filter_not_contains_nil (l : List String) :
    l.filter (fun x => !(([] : List String).contains x)) = l :=
  List.filter_eq_self.mpr (fun _ _ => rfl)

/-- Claim C10: a string argument that is not a path to an existing file
normalizes to the empty desired mapping with no warning logged, so
`set_subscribers` computes no additions, a deletion for every current
registry key, and dispatches that removal batch exactly when the current
registry is non-empty. -/
theorem claim_C10 (listName : String) (cur : Registry) (s : String) :
    set_subscribers listName cur (.pyStr s none) =
      Except.ok
        ⟨[], dkeys cur, (dkeys cur).map (remove_subscriber_request listName),
          !(dkeys cur).isEmpty, []⟩ := by
  show Except.ok
      (⟨[], (dkeys cur).filter (fun x => !(([] : List String).contains x)),
        ([] : List Request) ++
          ((dkeys cur).filter
              (fun x => !(([] : List String).contains x))).map
            (fun e => remove_subscriber_request listName e),
        !(([] : List Request) ++
            ((dkeys cur).filter
                (fun x => !(([] : List String).contains x))).map
              (fun e => remove_subscriber_request listName e)).isEmpty,
        []⟩ : SetSubsResult) = _
  rw [filter_not_contains_nil, List.nil_append, isEmpty_map]

theorem dlookup_mem {α : Type} (m : List (String × α)) (e : String) (v : α)
    (h : dlookup m e = some v) : (e, v) ∈ m := by
  induction m with
  | nil => cases h
  | cons kv rest ih =>
      obtain ⟨k0, v0⟩ := kv
      by_cases he : k0 = e
      · rw [dlookup, if_pos he] at h
        cases h
        subst he
        exact List.mem_cons_self _ _
      · rw [dlookup, if_neg he] at h
        exact List.mem_cons_of_mem _ (ih h)

theorem mem_dinsert {α : Type} (m : List (String × α)) (k : String) (v : α)
    (kv : String × α) (h : kv ∈ dinsert m k v) : kv ∈ m ∨ kv = (k, v) := by
  induction m with
  | nil => simpa [dinsert] using h
  | cons kv0 rest ih =>
      obtain ⟨k0, v0⟩ := kv0
      by_cases hk : k0 = k
      · rw [dinsert, if_pos hk] at h
        rcases List.mem_cons.mp h with h1 | h1
        · exact Or.inr (hk ▸ h1)
        · exact Or.inl (List.mem_cons_of_mem _ h1)
      · rw [dinsert, if_neg hk] at h
        rcases List.mem_cons.mp h with h1 | h1
        · exact Or.inl (h1 ▸ List.mem_cons_self _ _)
        · rcases ih h1 with h2 | h2
          · exact Or.inl (List.mem_cons_of_mem _ h2)
          · exact Or.inr h2

theorem sub_d_key (l : List SubEntry) :
    ∀ kv ∈ sub_d l, kv.1 = kv.2.email := by
  suffices h : ∀ d0 : List (String × SubEntry),
      (∀ kv ∈ d0, kv.1 = kv.2.email) →
      ∀ kv ∈ l.foldl (fun d sub => dinsert d sub.email sub) d0,
        kv.1 = kv.2.email by
    exact h [] (by simp)
  induction l with
  | nil => exact fun d0 h0 => h0
  | cons sub t ih =>
      intro d0 h0 kv hkv
      refine ih (dinsert d0 sub.email sub) ?_ kv hkv
      intro kv0 hkv0
      rcases mem_dinsert d0 sub.email sub kv0 hkv0 with h1 | h1
      · exact h0 kv0 h1
      · rw [h1]

theorem subs_from_obj_key (o : SubObj) (subscribers : List (String × SubEntry))
    (logs : List String) (hnorm : subs_from_obj o = Except.ok (subscribers, logs)) :
    ∀ kv ∈ subscribers, kv.1 = kv.2.email := by
  cases h : sub_list_of o with
  | error err =>
      rw [subs_from_obj, h] at hnorm
      cases hnorm
  | ok pr =>
      rw [subs_from_obj, h] at hnorm
      cases hnorm
      exact sub_d_key pr.1

theorem additionsOf_of_keys (subscribers : List (String × SubEntry))
    (hkey : ∀ kv ∈ subscribers, kv.1 = kv.2.email) (l : List String)
    (hl : ∀ x ∈ l, x ∈ dkeys subscribers) :
    ∃ A, additionsOf subscribers l = Except.ok A ∧ A.map Prod.fst = l := by
  induction l with
  | nil => exact ⟨[], rfl, rfl⟩
  | cons x xs ih =>
      have hx : (dlookup subscribers x).isSome :=
        (mem_dkeys_iff_isSome subscribers x).mp (hl x (List.mem_cons_self _ _))
      cases hs : dlookup subscribers x with
      | none => rw [hs] at hx; cases hx
      | some s =>
          obtain ⟨A, hA, hAfst⟩ :=
            ih (fun y hy => hl y (List.mem_cons_of_mem _ hy))
          refine ⟨(s.email, s.name) :: A, ?_, ?_⟩
          · rw [additionsOf, hs, hA]
          · have hse : s.email = x :=
              (hkey (x, s) (dlookup_mem subscribers x s hs)).symm
            simp [hse, hAfst]

/-- Claim C1: for every current registry and every desired input that
normalizes successfully, `set_subscribers` computes the additions as
exactly the normalized (desired) emails absent from the registry keys
and the deletions as exactly the registry keys absent from the desired
emails; when the two email sets coincide both lists are empty, the
request batch is empty, and nothing is dispatched. -/
theorem claim_C1 (listName : String) (cur : Registry) (o : SubObj)
    (subscribers : List (String × SubEntry)) (logs : List String)
    (hnorm : subs_from_obj o = Except.ok (subscribers, logs)) :
    ∃ res : SetSubsResult,
      set_subscribers listName cur o = Except.ok res ∧
      res.additions.map Prod.fst =
        (dkeys subscribers).filter (fun e => !((dkeys cur).contains e)) ∧
      res.deletions =
        (dkeys cur).filter (fun e => !((dkeys subscribers).contains e)) ∧
      ((∀ e, e ∈ dkeys subscribers ↔ e ∈ dkeys cur) →
        res.additions = [] ∧ res.deletions = [] ∧ res.requests = [] ∧
          res.dispatched = false) := by
  have hkey := subs_from_obj_key o subscribers logs hnorm
  have hemails :
      (subscribers.map Prod.snd).map SubEntry.email = dkeys subscribers := by
    rw [List.map_map, dkeys]
    exact List.map_congr_left (fun kv hkv => (hkey kv hkv).symm)
  have hsub : ∀ x ∈ (dkeys subscribers).filter
      (fun x => !((dkeys cur).contains x)), x ∈ dkeys subscribers :=
    fun x hx => (List.mem_filter.mp hx).1
  obtain ⟨A, hA, hAfst⟩ := additionsOf_of_keys subscribers hkey
    ((dkeys subscribers).filter (fun x => !((dkeys cur).contains x))) hsub
  have hrun : set_subscribers listName cur o =
      Except.ok
        ⟨A,
          (dkeys cur).filter (fun x => !((dkeys subscribers).contains x)),
          A.map (fun p => add_subscriber_request listName p.1 p.2) ++
            ((dkeys cur).filter
                (fun x => !((dkeys subscribers).contains x))).map
              (fun e => remove_subscriber_request listName e),
          !(A.map (fun p => add_subscriber_request listName p.1 p.2) ++
              ((dkeys cur).filter
                  (fun x => !((dkeys subscribers).contains x))).map
                (fun e => remove_subscriber_request listName e)).isEmpty,
          logs⟩ := by
    simp only [set_subscribers, hnorm]
    rw [hemails, hA]
  refine ⟨_, hrun, hAfst, rfl, ?_⟩
  intro heq
  have hadd :
      (dkeys subscribers).filter (fun e => !((dkeys cur).contains e)) = [] := by
    rw [List.filter_eq_nil_iff]
    intro a ha
    rw [contains_eq_decide_mem]
    simp [(heq a).mp ha]
  have hdel :
      (dkeys cur).filter (fun e => !((dkeys subscribers).contains e)) = [] := by
    rw [List.filter_eq_nil_iff]
    intro a ha
    rw [contains_eq_decide_mem]
    simp [(heq a).mpr ha]
  have hAnil : A = [] := by
    have h := hAfst.trans hadd
    exact List.map_eq_nil_iff.mp h
  refine ⟨hAnil, hdel, ?_, ?_⟩
  · simp only [hAnil, hdel, List.map_nil, List.nil_append]
  · simp only [hAnil, hdel, List.map_nil, List.nil_append, List.isEmpty_nil,
      Bool.not_true]

/-- Claim C1 witness: a one-element list input whose email set equals
the current registry's key set — nothing to add, delete or dispatch. -/
theorem claim_C1_witness :
    ∃ res : SetSubsResult,
      set_subscribers "mylist" [("a@x.com", aSub)]
          (.pyList [.str "a@x.com"]) = Except.ok res ∧
      res.additions.map Prod.fst =
        (dkeys [("a@x.com", (⟨"a@x.com", ""⟩ : SubEntry))]).filter
          (fun e => !((dkeys [("a@x.com", aSub)]).contains e)) ∧
      res.deletions =
        (dkeys ([("a@x.com", aSub)] : Registry)).filter
          (fun e => !((dkeys [("a@x.com", (⟨"a@x.com", ""⟩ : SubEntry))]).contains e)) ∧
      ((∀ e, e ∈ dkeys [("a@x.com", (⟨"a@x.com", ""⟩ : SubEntry))] ↔
          e ∈ dkeys ([("a@x.com", aSub)] : Registry)) →
        res.additions = [] ∧ res.deletions = [] ∧ res.requests = [] ∧
          res.dispatched = false) :=
  claim_C1 "mylist" [("a@x.com", aSub)] (.pyList [.str "a@x.com"])
    [("a@x.com", (⟨"a@x.com", ""⟩ : SubEntry))] [] (by rfl)

/-! ## Claim C9: the bounded concurrent dispatcher

The safety argument is a global invariant of the transition system: an
accounting of where every enqueued payload currently lives (queue, a
worker's hands, or the posted list), of the queue's `unfinished_tasks`
counter, and of the sentinel bookkeeping.  From the invariant, a state
whose main thread has returned has posted exactly the request batch
(once each, as a multiset) and stopped every worker; a separate progress
lemma shows no reachable non-returned state is stuck, so the bounded
queue never deadlocks. -/

theorem queueSomes_append_some (q : List (Option Request)) (r : Request) :
    queueSomes (q ++ [some r]) = queueSomes q ++ [r] := by
  simp [queueSomes]

theorem queueSomes_append_none (q : List (Option Request)) :
    queueSomes (q ++ [none]) = queueSomes q := by
  simp [queueSomes]

theorem queueNones_append_some (q : List (Option Request)) (r : Request) :
    queueNones (q ++ [some r]) = queueNones q := by
  simp [queueNones, List.countP_append, List.countP_cons, Option.isNone]

theorem queueNones_append_none (q : List (Option Request)) :
    queueNones (q ++ [none]) = queueNones q + 1 := by
  simp [queueNones, List.countP_append, List.countP_cons, Option.isNone]

theorem held_append_cons (l₁ l₂ : List WorkerState) (w : WorkerState) :
    held (l₁ ++ w :: l₂) = held l₁ ++ (heldOf w ++ held l₂) := by
  simp [held]

theorem numPostedSt_append_cons (l₁ l₂ : List WorkerState) (w : WorkerState) :
    numPostedSt (l₁ ++ w :: l₂) =
      numPostedSt l₁ + ((if isPostedSt w then 1 else 0) + numPostedSt l₂) := by
  simp [numPostedSt, List.countP_append, List.countP_cons]
  omega

theorem numStopped_append_cons (l₁ l₂ : List WorkerState) (w : WorkerState) :
    numStopped (l₁ ++ w :: l₂) =
      numStopped l₁ + ((if isStopped w then 1 else 0) + numStopped l₂) := by
  simp [numStopped, List.countP_append, List.countP_cons]
  omega

/-- The global invariant of one dispatcher call: lengths, payload
accounting (as a multiset equation), the `unfinished_tasks` counter, the
sentinel count, the post-`join` quiescence facts, and the thread-join
bookkeeping. -/
structure DInv (W : Nat) (requests : List Request) (s : DState) : Prop where
  wlen : s.workers.length = W
  perm : (requests : Multiset Request) =
    (queueSomes s.queue : Multiset Request) + (held s.workers) +
      (s.posted : Multiset Request) + (pendingPuts s.main)
  unfin : s.unfinished = (queueSomes s.queue).length +
    (held s.workers).length + numPostedSt s.workers + nonesPut W s.main
  nones : queueNones s.queue + numStopped s.workers = nonesPut W s.main
  lateQueue : latePhase s.main → queueSomes s.queue = []
  lateWorkers : latePhase s.main →
    ∀ w ∈ s.workers, w = WorkerState.idle ∨ w = WorkerState.stopped
  nonesBound : ∀ k, s.main = .puttingNones k → k ≤ W
  joinBound : ∀ k, s.main = .joiningThreads k → k ≤ s.workers.length
  joined : ∀ k, s.main = .joiningThreads k →
    ∀ w ∈ s.workers.take k, w = WorkerState.stopped
  retStopped : s.main = .returned → ∀ w ∈ s.workers, w = WorkerState.stopped

theorem held_eq_nil (ws : List WorkerState)
    (h : ∀ w ∈ ws, w = WorkerState.idle ∨ w = WorkerState.stopped) :
    held ws = [] := by
  rw [held, List.flatMap_eq_nil_iff]
  intro w hw
  rcases h w hw with h1 | h1 <;> rw [h1] <;> rfl

theorem numPostedSt_eq_zero (ws : List WorkerState)
    (h : ∀ w ∈ ws, w = WorkerState.idle ∨ w = WorkerState.stopped) :
    numPostedSt ws = 0 := by
  rw [numPostedSt, List.countP_eq_zero]
  intro w hw
  rcases h w hw with h1 | h1 <;> rw [h1] <;> exact fun hh => by cases hh

theorem replicate_idle_flat (n : Nat) (w : WorkerState)
    (hw : w ∈ List.replicate n WorkerState.idle) :
    w = WorkerState.idle ∨ w = WorkerState.stopped :=
  Or.inl (List.eq_of_mem_replicate hw)

theorem numStopped_replicate_idle (n : Nat) :
    numStopped (List.replicate n WorkerState.idle) = 0 := by
  rw [numStopped, List.countP_eq_zero]
  intro w hw
  rw [List.eq_of_mem_replicate hw]
  exact fun hh => by cases hh

theorem dinv_init (W : Nat) (requests : List Request) :
    DInv W requests (initState W requests) := by
  refine ⟨?_, ?_, ?_, ?_, ?_, ?_, ?_, ?_, ?_, ?_⟩
  · exact List.length_replicate W _
  · simp [initState, queueSomes, pendingPuts,
      held_eq_nil _ (replicate_idle_flat W)]
  · simp [initState, queueSomes, nonesPut,
      held_eq_nil _ (replicate_idle_flat W),
      numPostedSt_eq_zero _ (replicate_idle_flat W)]
  · simp [initState, queueNones, numStopped_replicate_idle, nonesPut]
  · exact fun h => h.elim
  · exact fun h => h.elim
  · exact (fun k h => nomatch h)
  · exact (fun k h => nomatch h)
  · exact (fun k h => nomatch h)
  · exact (fun h => nomatch h)

theorem mem_take_append_cons {α : Type} (l₁ l₂ : List α) (a : α) (k : Nat)
    (h : l₁.length < k) : a ∈ (l₁ ++ a :: l₂).take k := by
  rw [List.take_append_eq_append_take,
    List.take_of_length_le (le_of_lt h)]
  have h1 : ∃ j, k - l₁.length = j + 1 := ⟨k - l₁.length - 1, by omega⟩
  obtain ⟨j, hj⟩ := h1
  rw [hj, List.take_succ_cons]
  exact List.mem_append.mpr (Or.inr (List.mem_cons_self _ _))

/-- A worker transition (whose pre-state is not `stopped`) cannot
invalidate the fact that the first `k` workers are stopped. -/
theorem joined_preserved {l₁ l₂ : List WorkerState} {old new : WorkerState}
    (hold : old ≠ WorkerState.stopped) (k : Nat)
    (hpre : ∀ w ∈ (l₁ ++ old :: l₂).take k, w = WorkerState.stopped) :
    ∀ w ∈ (l₁ ++ new :: l₂).take k, w = WorkerState.stopped := by
  by_cases hk : k ≤ l₁.length
  · have hz : k - l₁.length = 0 := by omega
    rw [List.take_append_eq_append_take, hz, List.take_zero,
      List.append_nil] at hpre ⊢
    exact hpre
  · exact absurd (hpre old (mem_take_append_cons l₁ l₂ old k (by omega))) hold

theorem dinv_mainPut (W : Nat) (requests : List Request) (r : Request)
    (rest : List Request) (q : List (Option Request)) (u : Nat)
    (ws : List WorkerState) (p : List Request)
    (H : DInv W requests ⟨.putting (r :: rest), q, u, ws, p⟩) :
    DInv W requests ⟨.putting rest, q ++ [some r], u + 1, ws, p⟩ := by
  obtain ⟨wlen, perm, unfin, nones, _, _, _, _, _, _⟩ := H
  refine ⟨wlen, ?_, ?_, ?_, fun h => h.elim, fun h => h.elim,
    (fun k h => nomatch h), (fun k h => nomatch h), (fun k h => nomatch h),
    (fun h => nomatch h)⟩
  · simp only [pendingPuts] at perm ⊢
    rw [queueSomes_append_some, perm]
    simp only [← Multiset.coe_add, ← Multiset.cons_coe,
      ← Multiset.singleton_add, Multiset.coe_nil, add_zero, zero_add]
    ac_rfl
  · simp only [nonesPut] at unfin ⊢
    rw [queueSomes_append_some]
    simp only [List.length_append, List.length_cons, List.length_nil]
    omega
  · rw [queueNones_append_some]
    simpa [nonesPut] using nones

theorem dinv_mainFinishPuts (W : Nat) (requests : List Request)
    (q : List (Option Request)) (u : Nat) (ws : List WorkerState)
    (p : List Request) (H : DInv W requests ⟨.putting [], q, u, ws, p⟩) :
    DInv W requests ⟨.joiningQueue, q, u, ws, p⟩ := by
  obtain ⟨wlen, perm, unfin, nones, _, _, _, _, _, _⟩ := H
  refine ⟨wlen, ?_, ?_, ?_, fun h => h.elim, fun h => h.elim,
    (fun k h => nomatch h), (fun k h => nomatch h), (fun k h => nomatch h),
    (fun h => nomatch h)⟩
  · simpa [pendingPuts] using perm
  · simpa [nonesPut] using unfin
  · simpa [nonesPut] using nones

theorem dinv_mainJoinQueue (W : Nat) (requests : List Request)
    (q : List (Option Request)) (ws : List WorkerState) (p : List Request)
    (H : DInv W requests ⟨.joiningQueue, q, 0, ws, p⟩) :
    DInv W requests ⟨.puttingNones W, q, 0, ws, p⟩ := by
  obtain ⟨wlen, perm, unfin, nones, _, _, _, _, _, _⟩ := H
  simp only [nonesPut] at unfin nones
  have hq : queueSomes q = [] :=
    List.length_eq_zero.mp (by omega)
  have hheld : held ws = [] :=
    List.length_eq_zero.mp (by omega)
  have hnum : numPostedSt ws = 0 := by omega
  have hnumCount : List.countP isPostedSt ws = 0 := hnum
  have hlateW : ∀ w ∈ ws, w = WorkerState.idle ∨ w = WorkerState.stopped := by
    intro w hw
    cases w with
    | idle => exact Or.inl rfl
    | stopped => exact Or.inr rfl
    | hasData d =>
        exfalso
        have hd : d ∈ held ws := by
          rw [held]
          exact List.mem_flatMap.mpr ⟨_, hw, by simp [heldOf]⟩
        rw [hheld] at hd
        cases hd
    | postedData d => exact absurd rfl (List.countP_eq_zero.mp hnumCount _ hw)
  refine ⟨wlen, ?_, ?_, ?_, fun _ => hq, fun _ => hlateW, ?_,
    (fun k h => nomatch h), (fun k h => nomatch h), (fun h => nomatch h)⟩
  · simpa [pendingPuts] using perm
  · simp only [nonesPut]
    rw [hq, hheld, hnum]
    simp only [List.length_nil]
    omega
  · simp only [nonesPut]
    omega
  · intro k h
    injection h with h1
    omega

theorem dinv_mainPutNone (W : Nat) (requests : List Request) (k : Nat)
    (q : List (Option Request)) (u : Nat) (ws : List WorkerState)
    (p : List Request)
    (H : DInv W requests ⟨.puttingNones (k + 1), q, u, ws, p⟩) :
    DInv W requests ⟨.puttingNones k, q ++ [none], u + 1, ws, p⟩ := by
  obtain ⟨wlen, perm, unfin, nones, lateQ, lateW, nb, _, _, _⟩ := H
  have hkW : k + 1 ≤ W := nb (k + 1) rfl
  refine ⟨wlen, ?_, ?_, ?_, ?_, fun _ => lateW trivial, ?_,
    (fun k0 h => nomatch h), (fun k0 h => nomatch h), (fun h => nomatch h)⟩
  · rw [queueSomes_append_none]
    simpa [pendingPuts] using perm
  · rw [queueSomes_append_none]
    simp only [nonesPut] at unfin ⊢
    omega
  · rw [queueNones_append_none]
    simp only [nonesPut] at nones ⊢
    omega
  · intro _
    rw [queueSomes_append_none]
    exact lateQ trivial
  · intro k0 h
    injection h with h1
    omega

theorem dinv_mainFinishNones (W : Nat) (requests : List Request)
    (q : List (Option Request)) (u : Nat) (ws : List WorkerState)
    (p : List Request) (H : DInv W requests ⟨.puttingNones 0, q, u, ws, p⟩) :
    DInv W requests ⟨.joiningThreads 0, q, u, ws, p⟩ := by
  obtain ⟨wlen, perm, unfin, nones, lateQ, lateW, _, _, _, _⟩ := H
  refine ⟨wlen, ?_, ?_, ?_, fun _ => lateQ trivial, fun _ => lateW trivial,
    (fun k h => nomatch h), ?_, ?_, (fun h => nomatch h)⟩
  · simpa [pendingPuts] using perm
  · simp only [nonesPut] at unfin ⊢
    omega
  · simp only [nonesPut] at nones ⊢
    omega
  · intro k h
    injection h with h1
    omega
  · intro k h
    injection h with h1
    subst h1
    simp

theorem dinv_mainJoinThread (W : Nat) (requests : List Request) (k : Nat)
    (q : List (Option Request)) (u : Nat) (ws : List WorkerState)
    (p : List Request) (hk : ws[k]? = some WorkerState.stopped)
    (H : DInv W requests ⟨.joiningThreads k, q, u, ws, p⟩) :
    DInv W requests ⟨.joiningThreads (k + 1), q, u, ws, p⟩ := by
  obtain ⟨wlen, perm, unfin, nones, lateQ, lateW, _, jb, jn, _⟩ := H
  have hklen : k < ws.length := by
    rw [List.getElem?_eq_some] at hk
    exact hk.1
  refine ⟨wlen, perm, unfin, nones, fun _ => lateQ trivial,
    fun _ => lateW trivial, (fun k0 h => nomatch h), ?_, ?_,
    (fun h => nomatch h)⟩
  · intro k0 h
    injection h with h1
    subst h1
    show k + 1 ≤ ws.length
    omega
  · intro k0 h
    injection h with h1
    subst h1
    intro w hw
    rw [List.take_succ] at hw
    rcases List.mem_append.mp hw with h2 | h2
    · exact jn k rfl w h2
    · rw [hk] at h2
      simpa using h2

theorem dinv_mainReturn (W : Nat) (requests : List Request)
    (q : List (Option Request)) (u : Nat) (ws : List WorkerState)
    (p : List Request)
    (H : DInv W requests ⟨.joiningThreads ws.length, q, u, ws, p⟩) :
    DInv W requests ⟨.returned, q, u, ws, p⟩ := by
  obtain ⟨wlen, perm, unfin, nones, lateQ, lateW, _, _, jn, _⟩ := H
  refine ⟨wlen, perm, unfin, nones, fun _ => lateQ trivial,
    fun _ => lateW trivial, (fun k h => nomatch h), (fun k h => nomatch h),
    (fun k h => nomatch h), ?_⟩
  intro _ w hw
  exact jn ws.length rfl w (by rw [List.take_length]; exact hw)

theorem queueSomes_cons_some (d : Request) (rest : List (Option Request)) :
    queueSomes (some d :: rest) = d :: queueSomes rest := by
  simp [queueSomes]

theorem queueSomes_cons_none (rest : List (Option Request)) :
    queueSomes (none :: rest) = queueSomes rest := by
  simp [queueSomes]

theorem queueNones_cons_some (d : Request) (rest : List (Option Request)) :
    queueNones (some d :: rest) = queueNones rest := by
  simp [queueNones, List.countP_cons, Option.isNone]

theorem queueNones_cons_none (rest : List (Option Request)) :
    queueNones (none :: rest) = queueNones rest + 1 := by
  simp [queueNones, List.countP_cons, Option.isNone]

theorem dinv_workerGetSome (W : Nat) (requests : List Request) (m : MainState)
    (d : Request) (rest : List (Option Request)) (u : Nat)
    (l₁ l₂ : List WorkerState) (p : List Request)
    (H : DInv W requests ⟨m, some d :: rest, u, l₁ ++ .idle :: l₂, p⟩) :
    DInv W requests ⟨m, rest, u, l₁ ++ .hasData d :: l₂, p⟩ := by
  obtain ⟨wlen, perm, unfin, nones, lateQ, lateW, nb, jb, jn, ret⟩ := H
  have hlate : latePhase m → False := by
    intro h
    have h1 := lateQ h
    rw [queueSomes_cons_some] at h1
    cases h1
  refine ⟨?_, ?_, ?_, ?_, fun h => (hlate h).elim, fun h => (hlate h).elim,
    nb, ?_, ?_, ?_⟩
  · simp only [List.length_append, List.length_cons] at wlen ⊢
    omega
  · rw [queueSomes_cons_some, held_append_cons] at perm
    rw [held_append_cons]
    simp only [heldOf] at perm ⊢
    rw [perm]
    simp only [← Multiset.coe_add, ← Multiset.cons_coe,
      ← Multiset.singleton_add, Multiset.coe_nil, add_zero, zero_add]
    ac_rfl
  · rw [queueSomes_cons_some, held_append_cons, numPostedSt_append_cons]
      at unfin
    rw [held_append_cons, numPostedSt_append_cons]
    simp [heldOf, isPostedSt] at unfin ⊢
    omega
  · rw [queueNones_cons_some, numStopped_append_cons] at nones
    rw [numStopped_append_cons]
    simp [isStopped] at nones ⊢
    omega
  · intro k h
    have h1 := jb k h
    simp only [List.length_append, List.length_cons] at h1 ⊢
    omega
  · intro k h
    exact joined_preserved (fun hh => by cases hh) k (jn k h)
  · intro h
    have hm : m = MainState.returned := h
    exact (hlate (by rw [hm]; trivial)).elim

theorem dinv_workerGetNone (W : Nat) (requests : List Request) (m : MainState)
    (rest : List (Option Request)) (u : Nat) (l₁ l₂ : List WorkerState)
    (p : List Request)
    (H : DInv W requests ⟨m, none :: rest, u, l₁ ++ .idle :: l₂, p⟩) :
    DInv W requests ⟨m, rest, u, l₁ ++ .stopped :: l₂, p⟩ := by
  obtain ⟨wlen, perm, unfin, nones, lateQ, lateW, nb, jb, jn, ret⟩ := H
  refine ⟨?_, ?_, ?_, ?_, ?_, ?_, nb, ?_, ?_, ?_⟩
  · simp only [List.length_append, List.length_cons] at wlen ⊢
    omega
  · rw [queueSomes_cons_none, held_append_cons] at perm
    rw [held_append_cons]
    simp only [heldOf] at perm ⊢
    exact perm
  · rw [queueSomes_cons_none, held_append_cons, numPostedSt_append_cons]
      at unfin
    rw [held_append_cons, numPostedSt_append_cons]
    simp [heldOf, isPostedSt] at unfin ⊢
    omega
  · rw [queueNones_cons_none, numStopped_append_cons] at nones
    rw [numStopped_append_cons]
    simp [isStopped] at nones ⊢
    omega
  · intro h
    have h1 := lateQ h
    rw [queueSomes_cons_none] at h1
    exact h1
  · intro h w hw
    rcases List.mem_append.mp hw with h1 | h1
    · exact lateW h w (List.mem_append.mpr (Or.inl h1))
    · rcases List.mem_cons.mp h1 with h2 | h2
      · exact Or.inr h2
      · exact lateW h w
          (List.mem_append.mpr (Or.inr (List.mem_cons_of_mem _ h2)))
  · intro k h
    have h1 := jb k h
    simp only [List.length_append, List.length_cons] at h1 ⊢
    omega
  · intro k h
    exact joined_preserved (fun hh => by cases hh) k (jn k h)
  · intro h w hw
    cases (ret h WorkerState.idle
      (List.mem_append.mpr (Or.inr (List.mem_cons_self _ _))))

theorem dinv_workerPost (W : Nat) (requests : List Request) (m : MainState)
    (q : List (Option Request)) (u : Nat) (l₁ l₂ : List WorkerState)
    (p : List Request) (d : Request)
    (H : DInv W requests ⟨m, q, u, l₁ ++ .hasData d :: l₂, p⟩) :
    DInv W requests ⟨m, q, u, l₁ ++ .postedData d :: l₂, p ++ [d]⟩ := by
  obtain ⟨wlen, perm, unfin, nones, lateQ, lateW, nb, jb, jn, ret⟩ := H
  have hlate : latePhase m → False := by
    intro h
    rcases lateW h (WorkerState.hasData d)
        (List.mem_append.mpr (Or.inr (List.mem_cons_self _ _))) with h1 | h1 <;>
      cases h1
  refine ⟨?_, ?_, ?_, ?_, fun h => (hlate h).elim, fun h => (hlate h).elim,
    nb, ?_, ?_, ?_⟩
  · simp only [List.length_append, List.length_cons] at wlen ⊢
    omega
  · rw [held_append_cons] at perm
    rw [held_append_cons]
    simp only [heldOf] at perm ⊢
    rw [perm]
    simp only [← Multiset.coe_add, ← Multiset.cons_coe,
      ← Multiset.singleton_add, Multiset.coe_nil, add_zero, zero_add]
    ac_rfl
  · rw [held_append_cons, numPostedSt_append_cons] at unfin
    rw [held_append_cons, numPostedSt_append_cons]
    simp [heldOf, isPostedSt] at unfin ⊢
    omega
  · rw [numStopped_append_cons] at nones
    rw [numStopped_append_cons]
    simp [isStopped] at nones ⊢
    omega
  · intro k h
    have h1 := jb k h
    simp only [List.length_append, List.length_cons] at h1 ⊢
    omega
  · intro k h
    exact joined_preserved (fun hh => by cases hh) k (jn k h)
  · intro h
    have hm : m = MainState.returned := h
    exact (hlate (by rw [hm]; trivial)).elim

theorem dinv_workerTaskDone (W : Nat) (requests : List Request) (m : MainState)
    (q : List (Option Request)) (u : Nat) (l₁ l₂ : List WorkerState)
    (p : List Request) (d : Request)
    (H : DInv W requests ⟨m, q, u + 1, l₁ ++ .postedData d :: l₂, p⟩) :
    DInv W requests ⟨m, q, u, l₁ ++ .idle :: l₂, p⟩ := by
  obtain ⟨wlen, perm, unfin, nones, lateQ, lateW, nb, jb, jn, ret⟩ := H
  have hlate : latePhase m → False := by
    intro h
    rcases lateW h (WorkerState.postedData d)
        (List.mem_append.mpr (Or.inr (List.mem_cons_self _ _))) with h1 | h1 <;>
      cases h1
  refine ⟨?_, ?_, ?_, ?_, fun h => (hlate h).elim, fun h => (hlate h).elim,
    nb, ?_, ?_, ?_⟩
  · simp only [List.length_append, List.length_cons] at wlen ⊢
    omega
  · rw [held_append_cons] at perm
    rw [held_append_cons]
    simp only [heldOf] at perm ⊢
    exact perm
  · rw [held_append_cons, numPostedSt_append_cons] at unfin
    rw [held_append_cons, numPostedSt_append_cons]
    simp [heldOf, isPostedSt] at unfin ⊢
    omega
  · rw [numStopped_append_cons] at nones
    rw [numStopped_append_cons]
    simp [isStopped] at nones ⊢
    omega
  · intro k h
    have h1 := jb k h
    simp only [List.length_append, List.length_cons] at h1 ⊢
    omega
  · intro k h
    exact joined_preserved (fun hh => by cases hh) k (jn k h)
  · intro h
    have hm : m = MainState.returned := h
    exact (hlate (by rw [hm]; trivial)).elim

theorem dinv_step (W : Nat) (requests : List Request) (s t : DState)
    (H : DInv W requests s) (hstep : DStep W s t) : DInv W requests t := by
  cases hstep with
  | mainPut r rest q u ws p hq =>
      exact dinv_mainPut W requests r rest q u ws p H
  | mainFinishPuts q u ws p => exact dinv_mainFinishPuts W requests q u ws p H
  | mainJoinQueue q ws p => exact dinv_mainJoinQueue W requests q ws p H
  | mainPutNone k q u ws p hq => exact dinv_mainPutNone W requests k q u ws p H
  | mainFinishNones q u ws p =>
      exact dinv_mainFinishNones W requests q u ws p H
  | mainJoinThread k q u ws p hk =>
      exact dinv_mainJoinThread W requests k q u ws p hk H
  | mainReturn q u ws p => exact dinv_mainReturn W requests q u ws p H
  | workerGet m x rest u l₁ l₂ p =>
      cases x with
      | some d => exact dinv_workerGetSome W requests m d rest u l₁ l₂ p H
      | none => exact dinv_workerGetNone W requests m rest u l₁ l₂ p H
  | workerPost m q u l₁ l₂ p d =>
      exact dinv_workerPost W requests m q u l₁ l₂ p d H
  | workerTaskDone m q u l₁ l₂ p d =>
      exact dinv_workerTaskDone W requests m q u l₁ l₂ p d H

theorem dinv_reachable (W : Nat) (requests : List Request) (s : DState)
    (h : DReachable W requests s) : DInv W requests s := by
  induction h with
  | refl => exact dinv_init W requests
  | tail hsteps hstep ih => exact dinv_step W requests _ _ ih hstep

/-- Safety half of the dispatcher claim: once the main thread has
returned, every request has been posted exactly once (the posted list is
a permutation of the batch) and every worker has stopped. -/
theorem dispatch_safety (W : Nat) (requests : List Request) (s : DState)
    (hreach : DReachable W requests s) (hret : s.main = .returned) :
    s.posted.Perm requests ∧ ∀ w ∈ s.workers, w = WorkerState.stopped := by
  have H := dinv_reachable W requests s hreach
  have hstopped := H.retStopped hret
  refine ⟨?_, hstopped⟩
  have hperm := H.perm
  have hlate : latePhase s.main := by rw [hret]; trivial
  rw [H.lateQueue hlate,
    held_eq_nil s.workers (fun w hw => Or.inr (hstopped w hw))] at hperm
  have hpend : pendingPuts s.main = [] := by rw [hret]; rfl
  rw [hpend] at hperm
  have h2 : (requests : Multiset Request) = (s.posted : Multiset Request) := by
    simpa using hperm
  exact Multiset.coe_eq_coe.mp h2.symm

theorem hasData_decomp (ws : List WorkerState) (hne : held ws ≠ []) :
    ∃ l₁ l₂ d, ws = l₁ ++ WorkerState.hasData d :: l₂ := by
  obtain ⟨d, hd⟩ := List.exists_mem_of_ne_nil _ hne
  rw [held] at hd
  obtain ⟨w, hw, hdw⟩ := List.mem_flatMap.mp hd
  cases w with
  | hasData d0 =>
      obtain ⟨l₁, l₂, hdec⟩ := List.mem_iff_append.mp hw
      exact ⟨l₁, l₂, d0, hdec⟩
  | idle => cases hdw
  | postedData d0 => cases hdw
  | stopped => cases hdw

theorem postedSt_decomp (ws : List WorkerState) (hpos : 0 < numPostedSt ws) :
    ∃ l₁ l₂ d, ws = l₁ ++ WorkerState.postedData d :: l₂ := by
  rw [numPostedSt] at hpos
  obtain ⟨w, hw, hpw⟩ := List.countP_pos_iff.mp hpos
  cases w with
  | postedData d0 =>
      obtain ⟨l₁, l₂, hdec⟩ := List.mem_iff_append.mp hw
      exact ⟨l₁, l₂, d0, hdec⟩
  | idle => cases hpw
  | hasData d0 => cases hpw
  | stopped => cases hpw

theorem idle_decomp (ws : List WorkerState) (w : WorkerState) (hw : w ∈ ws)
    (hidle : w = WorkerState.idle) :
    ∃ l₁ l₂, ws = l₁ ++ WorkerState.idle :: l₂ := by
  subst hidle
  exact List.mem_iff_append.mp hw

theorem numStopped_lt_of_mem_ne (ws : List WorkerState) (w : WorkerState)
    (hw : w ∈ ws) (hne : w ≠ WorkerState.stopped) :
    numStopped ws < ws.length := by
  rcases lt_or_eq_of_le (List.countP_le_length (α := WorkerState) isStopped
    (l := ws)) with h | h
  · exact h
  · exfalso
    have := List.countP_eq_length.mp h w hw
    cases w with
    | stopped => exact hne rfl
    | idle => cases this
    | hasData d => cases this
    | postedData d => cases this

/-- Progress half of the dispatcher claim: a reachable state whose main
thread has not yet returned always has an enabled transition — in
particular the finite queue (capacity `2 * W`) never deadlocks the
put/get/join protocol. -/
theorem dispatch_progress (W : Nat) (requests : List Request) (s : DState)
    (hW : 1 ≤ W) (H : DInv W requests s) (hret : s.main ≠ .returned) :
    ∃ t, DStep W s t := by
  obtain ⟨m, q, u, ws, p⟩ := s
  have wlen : ws.length = W := H.wlen
  have hwsne : ws ≠ [] := by
    intro h
    rw [h] at wlen
    simp at wlen
    omega
  cases m with
  | returned => exact absurd rfl hret
  | putting rest =>
      cases rest with
      | nil => exact ⟨_, DStep.mainFinishPuts q u ws p⟩
      | cons r rest0 =>
          by_cases hq : q.length < 2 * W
          · exact ⟨_, DStep.mainPut r rest0 q u ws p hq⟩
          · have hqne : q ≠ [] := by
              intro hnil
              rw [hnil] at hq
              simp at hq
              omega
            obtain ⟨x, q0, rfl⟩ : ∃ x q0, q = x :: q0 := by
              cases q with
              | nil => exact absurd rfl hqne
              | cons x q0 => exact ⟨x, q0, rfl⟩
            have hnost : numStopped ws = 0 := by
              have hn := H.nones
              simp only [nonesPut] at hn
              omega
            obtain ⟨w0, ws0, rfl⟩ : ∃ w0 ws0, ws = w0 :: ws0 := by
              cases ws with
              | nil => exact absurd rfl hwsne
              | cons w0 ws0 => exact ⟨w0, ws0, rfl⟩
            cases hw0 : w0 with
            | idle =>
                exact ⟨_, DStep.workerGet (MainState.putting (r :: rest0))
                  x q0 u [] ws0 p⟩
            | hasData d =>
                exact ⟨_, DStep.workerPost (MainState.putting (r :: rest0))
                  (x :: q0) u [] ws0 p d⟩
            | postedData d =>
                have hpos : 0 < numPostedSt (w0 :: ws0) := by
                  rw [numPostedSt, List.countP_cons, hw0]
                  simp [isPostedSt]
                have hu : 1 ≤ u := by
                  have hunf := H.unfin
                  simp only [nonesPut] at hunf
                  omega
                obtain ⟨u0, rfl⟩ : ∃ u0, u = u0 + 1 := ⟨u - 1, by omega⟩
                exact ⟨_, DStep.workerTaskDone (MainState.putting (r :: rest0))
                  (x :: q0) u0 [] ws0 p d⟩
            | stopped =>
                exfalso
                rw [hw0] at hnost
                rw [numStopped, List.countP_cons] at hnost
                simp [isStopped] at hnost
  | joiningQueue =>
      cases u with
      | zero => exact ⟨_, DStep.mainJoinQueue q ws p⟩
      | succ u0 =>
          have hunf := H.unfin
          simp only [nonesPut] at hunf
          by_cases hnum : 0 < numPostedSt ws
          · obtain ⟨l₁, l₂, d, rfl⟩ := postedSt_decomp ws hnum
            exact ⟨_, DStep.workerTaskDone MainState.joiningQueue q u0 l₁ l₂ p d⟩
          · by_cases hheld : held ws = []
            · have hqs : queueSomes q ≠ [] := by
                intro hnil
                rw [hnil, hheld] at hunf
                simp at hunf
                omega
              have hqne : q ≠ [] := by
                intro hnil
                rw [hnil] at hqs
                exact hqs rfl
              obtain ⟨x, q0, rfl⟩ : ∃ x q0, q = x :: q0 := by
                cases q with
                | nil => exact absurd rfl hqne
                | cons x q0 => exact ⟨x, q0, rfl⟩
              have hnost : numStopped ws = 0 := by
                have hn := H.nones
                simp only [nonesPut] at hn
                omega
              obtain ⟨w0, ws0, rfl⟩ : ∃ w0 ws0, ws = w0 :: ws0 := by
                cases ws with
                | nil => exact absurd rfl hwsne
                | cons w0 ws0 => exact ⟨w0, ws0, rfl⟩
              cases hw0 : w0 with
              | idle =>
                  exact ⟨_, DStep.workerGet MainState.joiningQueue x q0
                    (u0 + 1) [] ws0 p⟩
              | hasData d =>
                  exfalso
                  rw [hw0] at hheld
                  rw [held] at hheld
                  simp [heldOf] at hheld
              | postedData d =>
                  exfalso
                  apply hnum
                  rw [hw0, numPostedSt, List.countP_cons]
                  simp [isPostedSt]
              | stopped =>
                  exfalso
                  rw [hw0] at hnost
                  rw [numStopped, List.countP_cons] at hnost
                  simp [isStopped] at hnost
            · obtain ⟨l₁, l₂, d, rfl⟩ := hasData_decomp ws hheld
              exact ⟨_, DStep.workerPost MainState.joiningQueue q (u0 + 1)
                l₁ l₂ p d⟩
  | puttingNones k =>
      cases k with
      | zero => exact ⟨_, DStep.mainFinishNones q u ws p⟩
      | succ k0 =>
          by_cases hq : q.length < 2 * W
          · exact ⟨_, DStep.mainPutNone k0 q u ws p hq⟩
          · have hkb : k0 + 1 ≤ W := H.nonesBound (k0 + 1) rfl
            have hn := H.nones
            simp only [nonesPut] at hn
            have hqn : queueNones q ≤ q.length :=
              List.countP_le_length _
            by_cases hall : ∀ w ∈ ws, w = WorkerState.stopped
            · exfalso
              have hstl : numStopped ws = ws.length := by
                rw [numStopped, List.countP_eq_length]
                intro w hw
                rw [hall w hw]
                rfl
              rw [hstl, wlen] at hn
              omega
            · push_neg at hall
              obtain ⟨w, hw, hwne⟩ := hall
              have hidle : w = WorkerState.idle := by
                rcases H.lateWorkers trivial w hw with h1 | h1
                · exact h1
                · exact absurd h1 hwne
              obtain ⟨l₁, l₂, rfl⟩ := idle_decomp ws w hw hidle
              have hqne : q ≠ [] := by
                intro hnil
                rw [hnil] at hq
                simp at hq
                omega
              obtain ⟨x, q0, rfl⟩ : ∃ x q0, q = x :: q0 := by
                cases q with
                | nil => exact absurd rfl hqne
                | cons x q0 => exact ⟨x, q0, rfl⟩
              exact ⟨_, DStep.workerGet (MainState.puttingNones (k0 + 1))
                x q0 u l₁ l₂ p⟩
  | joiningThreads k =>
      have hkb : k ≤ ws.length := H.joinBound k rfl
      rcases lt_or_eq_of_le hkb with hk | hk
      · have hget : ws[k]? = some ws[k] :=
          (List.getElem?_eq_some_getElem_iff ws k hk).mpr trivial
        have hmem : ws[k] ∈ ws := List.getElem_mem hk
        by_cases hst : ws[k] = WorkerState.stopped
        · rw [hst] at hget
          exact ⟨_, DStep.mainJoinThread k q u ws p hget⟩
        · have hidle : ws[k] = WorkerState.idle := by
            rcases H.lateWorkers trivial ws[k] hmem with h1 | h1
            · exact h1
            · exact absurd h1 hst
          have hn := H.nones
          simp only [nonesPut] at hn
          have hlt : numStopped ws < ws.length :=
            numStopped_lt_of_mem_ne ws ws[k] hmem hst
          have hqnpos : 0 < queueNones q := by omega
          have hqne : q ≠ [] := by
            intro hnil
            rw [hnil] at hqnpos
            simp [queueNones] at hqnpos
          obtain ⟨x, q0, rfl⟩ : ∃ x q0, q = x :: q0 := by
            cases q with
            | nil => exact absurd rfl hqne
            | cons x q0 => exact ⟨x, q0, rfl⟩
          obtain ⟨l₁, l₂, rfl⟩ := idle_decomp ws ws[k] hmem hidle
          exact ⟨_, DStep.workerGet (MainState.joiningThreads k) x q0 u
            l₁ l₂ p⟩
      · subst hk
        exact ⟨_, DStep.mainReturn q u ws p⟩

/-- Claim C9: for every batch and every pool size `W ≥ 1` (the code's
default is `MAX_CONCURRENT_REQUEST_THREADS = 4`), the dispatcher returns
to its caller only after every payload has been submitted to the gateway
exactly once (the posted sequence is a permutation of the batch — no
payload dropped, regardless of how the batch size compares to `W` or to
the queue capacity `2 * W`) and all `W` workers have consumed a stop
sentinel and stopped; moreover no reachable non-returned state is stuck,
so the bounded queue introduces no deadlock. -/
theorem claim_C9 (W : Nat) (requests : List Request) (s : DState)
    (hW : 1 ≤ W) (hreach : DReachable W requests s) :
    (s.main = .returned →
      s.posted.Perm requests ∧ ∀ w ∈ s.workers, w = WorkerState.stopped) ∧
    (s.main ≠ .returned → ∃ t, DStep W s t) :=
  ⟨fun hret => dispatch_safety W requests s hreach hret,
   fun hret => dispatch_progress W requests s hW
     (dinv_reachable W requests s hreach) hret⟩

/-- A concrete payload for the dispatcher witness. -/
def sampleRequest : Request := reset_bouncing_request "mylist" "a@x.com"

/-- Claim C9 witness: a complete interleaved execution of a one-request
batch through a pool of one worker, ending returned with the request
posted once and the worker stopped. -/
theorem claim_C9_witness :
    (⟨.returned, [], 1, [WorkerState.stopped], [sampleRequest]⟩ :
        DState).posted.Perm [sampleRequest] ∧
      ∀ w ∈ (⟨.returned, [], 1, [WorkerState.stopped], [sampleRequest]⟩ :
        DState).workers, w = WorkerState.stopped := by
  have h0 : DReachable 1 [sampleRequest] (initState 1 [sampleRequest]) :=
    Relation.ReflTransGen.refl
  have h1 : DReachable 1 [sampleRequest]
      ⟨.putting [], [some sampleRequest], 1, [.idle], []⟩ :=
    h0.tail (DStep.mainPut sampleRequest [] [] 0 [.idle] [] (by decide))
  have h2 : DReachable 1 [sampleRequest]
      ⟨.joiningQueue, [some sampleRequest], 1, [.idle], []⟩ :=
    h1.tail (DStep.mainFinishPuts [some sampleRequest] 1 [.idle] [])
  have h3 : DReachable 1 [sampleRequest]
      ⟨.joiningQueue, [], 1, [.hasData sampleRequest], []⟩ :=
    h2.tail (DStep.workerGet .joiningQueue (some sampleRequest) [] 1 [] [] [])
  have h4 : DReachable 1 [sampleRequest]
      ⟨.joiningQueue, [], 1, [.postedData sampleRequest], [sampleRequest]⟩ :=
    h3.tail (DStep.workerPost .joiningQueue [] 1 [] [] [] sampleRequest)
  have h5 : DReachable 1 [sampleRequest]
      ⟨.joiningQueue, [], 0, [.idle], [sampleRequest]⟩ :=
    h4.tail (DStep.workerTaskDone .joiningQueue [] 0 [] [] [sampleRequest]
      sampleRequest)
  have h6 : DReachable 1 [sampleRequest]
      ⟨.puttingNones 1, [], 0, [.idle], [sampleRequest]⟩ :=
    h5.tail (DStep.mainJoinQueue [] [.idle] [sampleRequest])
  have h7 : DReachable 1 [sampleRequest]
      ⟨.puttingNones 0, [none], 1, [.idle], [sampleRequest]⟩ :=
    h6.tail (DStep.mainPutNone 0 [] 0 [.idle] [sampleRequest] (by decide))
  have h8 : DReachable 1 [sampleRequest]
      ⟨.joiningThreads 0, [none], 1, [.idle], [sampleRequest]⟩ :=
    h7.tail (DStep.mainFinishNones [none] 1 [.idle] [sampleRequest])
  have h9 : DReachable 1 [sampleRequest]
      ⟨.joiningThreads 0, [], 1, [.stopped], [sampleRequest]⟩ :=
    h8.tail (DStep.workerGet (.joiningThreads 0) none [] 1 [] []
      [sampleRequest])
  have h10 : DReachable 1 [sampleRequest]
      ⟨.joiningThreads 1, [], 1, [.stopped], [sampleRequest]⟩ :=
    h9.tail (DStep.mainJoinThread 0 [] 1 [.stopped] [sampleRequest] (by rfl))
  have h11 : DReachable 1 [sampleRequest]
      ⟨.returned, [], 1, [.stopped], [sampleRequest]⟩ :=
    h10.tail (DStep.mainReturn [] 1 [.stopped] [sampleRequest])
  exact (claim_C9 1 [sampleRequest] _ (by decide) h11).1 rfl

end Sympal
